import Mathlib

/-!
Verification of the grus-gui core model (files src/node.rs and src/ftree.rs).

Machine integers (u64, usize) are modelled as Nat: none of the verified
operations can overflow observable 64-bit arithmetic (they only insert, look
up and count), so the Nat embedding is faithful.  Rust HashMap maps keyed by
u64 are modelled as functions to Option when only lookup/update matters
(nodes, links) and as association lists when the code iterates over them
(selections); HashSet of u64 is modelled as a duplicate-free list.  Store
reads (grus-lib, an external collaborator) are modelled as Except values
carried by a Store record; Err is the store's opaque error type.
-/

namespace Grus

/-- Opaque store error (grus-lib Error is external; only propagation matters). -/
abbrev Err := Nat

/-- Model of grus-lib Session: a start/end timestamp pair (timestamps as Nat). -/
abbrev SessionM := Nat × Nat

/-- Model of Node from src/node.rs: id, name, optional due date, optional
first session. -/
structure Node where
  id : Nat
  name : String
  due_date : Option Nat
  session : Option SessionM
deriving DecidableEq, Repr

/-- Model of the Tree struct from src/node.rs.  The nodes and links HashMaps
are modelled extensionally as functions to Option (HashMap iteration order is
never observed for them); the selections HashMap is modelled as an
association list from child id to its duplicate-free list of parent ids,
because the code iterates over it. -/
structure Tree where
  nodes : Nat → Option Node
  links : Nat → Option (List Nat)
  selections : List (Nat × List Nat)
  highlighted : Option Nat

/-- Lookup in the association-list model of the selections HashMap. -/
def selLookup (k : Nat) : List (Nat × List Nat) → Option (List Nat)
  | [] => none
  | e :: rest => if e.1 = k then some e.2 else selLookup k rest

/-- Replace the value stored at an existing key (HashMap get_mut then in-place
mutation). -/
def selUpdate (k : Nat) (v : List Nat) : List (Nat × List Nat) → List (Nat × List Nat)
  | [] => []
  | e :: rest => if e.1 = k then (k, v) :: rest else e :: selUpdate k v rest

/-- Remove the entry at a key (HashMap remove). -/
def selErase (k : Nat) : List (Nat × List Nat) → List (Nat × List Nat)
  | [] => []
  | e :: rest => if e.1 = k then rest else e :: selErase k rest

/-- Model of Tree::toggle from src/node.rs: if the child id has an entry, flip
the presence of pid in its parent set (removing the entry when the set
empties); otherwise create the entry holding exactly pid. -/
def Tree.toggle (t : Tree) (pid id : Nat) : Tree :=
  match selLookup id t.selections with
  | some pids =>
    if pid ∈ pids then
      let pids' := pids.erase pid
      if pids' = [] then
        { t with selections := selErase id t.selections }
      else
        { t with selections := selUpdate id pids' t.selections }
    else
      { t with selections := selUpdate id (pids ++ [pid]) t.selections }
  | none => { t with selections := t.selections ++ [(id, [pid])] }

/-- Model of Tree::is_selected from src/node.rs. -/
def Tree.is_selected (t : Tree) (pid id : Nat) : Bool :=
  match selLookup id t.selections with
  | some pids => pid ∈ pids
  | none => false

/-- Model of Tree::selections (the iterator method) from src/node.rs: if the
map is nonempty, flat-map each entry (id, pids) to the pairs (pid, id);
otherwise the explicitly empty iterator. -/
def Tree.selectionPairs (t : Tree) : List (Nat × Nat) :=
  if t.selections.isEmpty then []
  else t.selections.flatMap (fun e => e.2.map (fun pid => (pid, e.1)))

/-- Model of Tree::selection_ids from src/node.rs: the keys of the selections
map when it is nonempty, the explicitly empty iterator otherwise. -/
def Tree.selection_ids (t : Tree) : List Nat :=
  if t.selections.isEmpty then [] else t.selections.map (fun e => e.1)

/-- Well-formedness of the selections model, matching the unobservable HashMap
and HashSet representation invariants: keys are distinct and each parent set
is duplicate-free. -/
def Tree.selWF (t : Tree) : Prop :=
  (t.selections.map (fun e => e.1)).Nodup ∧ ∀ e ∈ t.selections, e.2.Nodup

/-- No-empty-entry invariant stated by the spec: the selections map never
holds an entry whose parent set is empty. -/
def Tree.noEmpty (t : Tree) : Prop :=
  ∀ e ∈ t.selections, e.2 ≠ []

/-- Model of the store reader interface used by Tree::rebuild (grus-lib is an
external collaborator: every read may fail).  The all_names enumeration
yields per-entry results, and child_ids yields a list of per-element results,
exactly as the Rust iterators do. -/
structure Store where
  reader : Except Err Unit
  all_names : Except Err (List (Except Err (Nat × String)))
  due_date : Nat → Except Err (Option Nat)
  first_session : Nat → Except Err (Option SessionM)
  child_ids : Nat → Except Err (List (Except Err Nat))

/-- Model of Iterator::collect into Result: first error aborts, otherwise the
list of successes in order. -/
def collectE : List (Except Err Nat) → Except Err (List Nat)
  | [] => Except.ok []
  | Except.error e :: _ => Except.error e
  | Except.ok x :: rest =>
    match collectE rest with
    | Except.error e => Except.error e
    | Except.ok xs => Except.ok (x :: xs)

/-- Loop body of Tree::rebuild over the entries yielded by all_names.  Mirrors
the evaluation order of the Rust loop: the entry result, then due_date and
first_session (failing before the nodes insert), then the nodes insert, then
child_ids and its collect (failing after the nodes insert but before the
links insert), then the links insert.  Returns the tree as mutated so far
together with the error, if any. -/
def rebuildLoop (store : Store) : Tree → List (Except Err (Nat × String)) → Tree × Option Err
  | t, [] => (t, none)
  | t, Except.error e :: _ => (t, some e)
  | t, Except.ok (id, name) :: rest =>
    match store.due_date id with
    | Except.error e => (t, some e)
    | Except.ok dd =>
    match store.first_session id with
    | Except.error e => (t, some e)
    | Except.ok sess =>
    let t1 : Tree := { t with nodes := fun k => if k = id then some ⟨id, name, dd, sess⟩ else t.nodes k }
    match store.child_ids id with
    | Except.error e => (t1, some e)
    | Except.ok cidResults =>
    match collectE cidResults with
    | Except.error e => (t1, some e)
    | Except.ok cids =>
      rebuildLoop store { t1 with links := fun k => if k = id then some cids else t1.links k } rest

/-- Model of Tree::rebuild from src/node.rs: clear nodes and links first, then
obtain the reader and the name enumeration (either may fail after the clear),
then run the per-entry loop.  The Rust signature (&mut self) -> Result<(), E>
is modelled as the pair of the mutated tree and the optional error. -/
def Tree.rebuild (t : Tree) (store : Store) : Tree × Option Err :=
  let t0 : Tree := { t with nodes := fun _ => none, links := fun _ => none }
  match store.reader with
  | Except.error e => (t0, some e)
  | Except.ok _ =>
  match store.all_names with
  | Except.error e => (t0, some e)
  | Except.ok entries => rebuildLoop store t0 entries

/-- Model of the priority (sibling-rank) pair from src/ftree.rs. -/
structure Priority where
  det : Nat
  total : Nat
deriving DecidableEq, Repr

/-- Model of Priority::is_least from src/ftree.rs. -/
def Priority.is_least (p : Priority) : Bool :=
  p.det + 1 = p.total

/-- Model of FNode from src/ftree.rs.  The node reference is represented by
the node id (the only node attribute the flattening logic itself consumes;
name, due date and session only influence the externally measured row
height). -/
structure FNode where
  id : Nat
  path : List Nat
  pid : Nat
  depth : Nat
  selected : Bool
  priority : Priority
deriving DecidableEq, Repr

/-- Structural child ids of a node: the links entry.  In Rust this is the
indexing expression on the links HashMap, which panics when the key is
absent; the model defaults to the empty list, and theorems that depend on a
node's children state the entry explicitly. -/
def Tree.childIds (t : Tree) (id : Nat) : List Nat :=
  (t.links id).getD []

/-- Relation used by the sort in FChildIter::new (ordering on det). -/
def detLe (a b : FNode) : Prop :=
  a.priority.det ≤ b.priority.det

instance : DecidableRel detLe := fun x y => Nat.decLe x.priority.det y.priority.det

/-- Model of FChildIter::new from src/ftree.rs: build one FNode per structural
child of the given placed row, carrying the parent's path (extended only when
the child is placed), the parent id, depth equal to the parent's path length,
the membership flag, and rank i-of-n by position; finally sort by det (the
Rust code first builds with rank 0-of-0 and then overwrites rank by position,
which is equivalent).  The sort is by a stable sort on det, as sort_by is. -/
def fchildren (t : Tree) (fnode : FNode) : List FNode :=
  let cids := t.childIds fnode.id
  let children := cids.enum.map (fun p =>
    { id := p.2
      path := fnode.path
      pid := fnode.id
      depth := fnode.path.length
      selected := t.is_selected fnode.id p.2
      priority := ⟨p.1, cids.length⟩ : FNode })
  List.insertionSort detLe children

/-- Lexicographic comparison of paths, true iff left ≤ right: the Vec Ord
instance used by the final sort_by in flattree (a strict prefix compares
less). -/
def pathLe : List Nat → List Nat → Bool
  | [], _ => true
  | _ :: _, [] => false
  | a :: as, b :: bs => if a < b then true else if b < a then false else pathLe as bs

/-- Ordering of laid-out rows by path, as the closure passed to sort_by. -/
def rowLe (a b : FNode) : Prop :=
  pathLe a.path b.path = true

instance : DecidableRel rowLe := fun x y => instDecidableEqBool (pathLe x.path y.path) true

/-- Model of the final lofnodes.sort_by on paths.  Rust's sort_by is a stable
sort; every stable sort computes the same list for a total preorder, so a
stable insertion sort is a faithful model. -/
def sortByPath (rows : List FNode) : List FNode :=
  List.insertionSort rowLe rows

/-- Measure of the iterator queue: total pending children plus one unit per
queued iterator (each inner-loop step removes a child or drops an exhausted
iterator). -/
def queueMeasure (q : List (List FNode)) : Nat :=
  (q.map (fun l => l.length + 1)).sum

/-- Model of the inner while-let loop of flattree (src/ftree.rs): pop the
front iterator; if exhausted, drop it; otherwise take its next child, extend
the child's path with the current row count, measure the child's widgets
(advance y by the externally measured row height H), stop the whole traversal
if the next widget position exceeds maxy (the Boolean result records this
break), else push the iterator back and append the row.  Returns the final y,
the rows, and whether the outer loop was broken.  The Nat fuel only serves
Lean totality: every step decreases queueMeasure by exactly one, so the
caller passes queueMeasure of the initial queue and the fuel-exhaustion
branch is never reached (the loop needs no fuel in Rust). -/
def flatInner (H : Nat → Nat) (maxy : Nat) : Nat → Nat → List FNode → List (List FNode) → Nat × List FNode × Bool
  | 0, y, rows, _ => (y, rows, false)
  | _ + 1, y, rows, [] => (y, rows, false)
  | fuel + 1, y, rows, [] :: queue => flatInner H maxy fuel y rows queue
  | fuel + 1, y, rows, (c :: cs) :: queue =>
    let child : FNode := { c with path := c.path ++ [rows.length] }
    let y' := y + H child.id
    if maxy < y' then (y', rows, true)
    else flatInner H maxy fuel y' (rows ++ [child]) (queue ++ [cs])

/-- Model of the outer labelled loop of flattree: per wave, enqueue a child
iterator for every row placed since the previous wave, run the inner loop,
and stop either on the viewport break (second component false: truncated) or
when a wave places nothing (second component true: the whole displayed
subtree was placed).  The Rust loop needs no fuel; the Nat fuel only serves
Lean totality and is instantiated large enough by callers. -/
def flatOuter (t : Tree) (H : Nat → Nat) (maxy : Nat) : Nat → Nat → Nat → List FNode → List FNode × Bool
  | 0, _, _, rows => (rows, false)
  | fuel + 1, start, y, rows =>
    let queue := (rows.drop start).map (fun r => fchildren t r)
    let start' := rows.length
    match flatInner H maxy (queueMeasure queue) y rows queue with
    | (_, rows', true) => (rows', false)
    | (y', rows', false) =>
      if start' = rows'.length then (rows', true)
      else flatOuter t H maxy fuel start' y' rows'

/-- The root FNode constructed at the top of flattree (path [0], depth 0,
rank 0 of 1, membership under the requested root parent). -/
def rootFNode (t : Tree) (pid id : Nat) : FNode :=
  ⟨id, [0], pid, 0, t.is_selected pid id, ⟨0, 1⟩⟩

/-- Model of flattree from src/ftree.rs, restricted to the row computation
(widget interaction and painting are external).  Parameters: H gives the
externally measured height consumed by a row (create_fnode advances the
widget placer cursor by it), y0 is the cursor position at entry, maxy the
viewport bottom.  Returns the path-sorted rows and whether the traversal
completed without the viewport break. -/
def flattree (t : Tree) (H : Nat → Nat) (y0 maxy : Nat) (pid id : Nat) (fuel : Nat) : List FNode × Bool :=
  if maxy < y0 + H id then ([], false)
  else
    match flatOuter t H maxy fuel 0 (y0 + H id) [rootFNode t pid id] with
    | (rows, completed) => (sortByPath rows, completed)

/-- Flat rows of a flatten pass (first component of flattree). -/
def flatRows (t : Tree) (H : Nat → Nat) (y0 maxy : Nat) (pid id : Nat) (fuel : Nat) : List FNode :=
  (flattree t H y0 maxy pid id fuel).1

/-- Model of TreeViewPainter::place_fnodes vertical layout: each row's top is
the running offset, advanced by the row's measured height. -/
def placeTops (H : Nat → Nat) : Nat → List FNode → List (FNode × Nat)
  | _, [] => []
  | y, r :: rest => (r, y) :: placeTops H (y + H r.id) rest

/-- Model of egui Color32 restricted to rgb (alpha is constant in the code). -/
structure Color where
  r : Nat
  g : Nat
  b : Nat
deriving DecidableEq, Repr

/-- Model of Color32::WHITE. -/
def white : Color := ⟨255, 255, 255⟩

/-- Model of the color-map construction loop in TreeViewPainter::new
(src/ftree.rs): walk the sorted rows; an id seen for the first time is
assigned WHITE; when an id is seen again and its entry is still WHITE, the
entry is overwritten with a color derived from the std DefaultHasher hash of
the id.  The hash derivation is external std behaviour and enters as the
hashColor parameter. -/
def buildColorMap (hashColor : Nat → Color) : (Nat → Option Color) → List FNode → (Nat → Option Color)
  | m, [] => m
  | m, row :: rest =>
    match m row.id with
    | some c =>
      if c = white then
        buildColorMap hashColor (fun k => if k = row.id then some (hashColor row.id) else m k) rest
      else
        buildColorMap hashColor m rest
    | none => buildColorMap hashColor (fun k => if k = row.id then some white else m k) rest

/-- Final per-id connector color map read by paint_div_line. -/
def colorMap (hashColor : Nat → Color) (rows : List FNode) : Nat → Option Color :=
  buildColorMap hashColor (fun _ => none) rows

/-- Specification-side definition of a pre-order listing of the displayed
tree: the listing of a node is the node followed by the concatenation of
listings of its structural children, in sibling order.  Used to state the
document-order property of the sorted flatten output. -/
inductive PreOrd (links : Nat → List Nat) : Nat → List Nat → Prop where
  | node : ∀ id segs, List.Forall₂ (PreOrd links) (links id) segs →
      PreOrd links id (id :: segs.flatten)

/-! Helper lemmas about the rebuild loop. -/

/-- The rebuild loop never touches the selections list or the highlighted id. -/
lemma rebuildLoop_sel_high (store : Store) :
    ∀ (entries : List (Except Err (Nat × String))) (t : Tree),
      ((rebuildLoop store t entries).1).selections = t.selections ∧
      ((rebuildLoop store t entries).1).highlighted = t.highlighted := by
  intro entries
  induction entries with
  | nil => intro t; exact ⟨rfl, rfl⟩
  | cons e rest ih =>
    intro t
    cases e with
    | error err => exact ⟨rfl, rfl⟩
    | ok p =>
      obtain ⟨id, name⟩ := p
      simp only [rebuildLoop]
      repeat' split
      all_goals first | exact ih _ | exact ⟨rfl, rfl⟩

/-- The rebuild loop result (nodes, links and error) depends only on the nodes
and links of the tree it starts from. -/
lemma rebuildLoop_congr (store : Store) :
    ∀ (entries : List (Except Err (Nat × String))) (t1 t2 : Tree),
      t1.nodes = t2.nodes → t1.links = t2.links →
      ((rebuildLoop store t1 entries).1).nodes = ((rebuildLoop store t2 entries).1).nodes ∧
      ((rebuildLoop store t1 entries).1).links = ((rebuildLoop store t2 entries).1).links ∧
      (rebuildLoop store t1 entries).2 = (rebuildLoop store t2 entries).2 := by
  intro entries
  induction entries with
  | nil => intro t1 t2 hn hl; exact ⟨hn, hl, rfl⟩
  | cons e rest ih =>
    intro t1 t2 hn hl
    cases e with
    | error err => exact ⟨hn, hl, rfl⟩
    | ok p =>
      obtain ⟨id, name⟩ := p
      simp only [rebuildLoop]
      repeat' split
      all_goals first
        | exact ih _ _ (by rw [hn]) (by rw [hl])
        | exact ⟨by rw [hn], by rw [hl], rfl⟩

/-- Claim C8: rebuild modifies only the node map and the ownership-link map;
the selections list and the highlighted id are preserved in memory across
every rebuild, whether it succeeds or fails. -/
theorem rebuild_preserves_selections (t : Tree) (store : Store) :
    ((t.rebuild store).1).selections = t.selections ∧
    ((t.rebuild store).1).highlighted = t.highlighted := by
  unfold Tree.rebuild
  cases store.reader with
  | error e => exact ⟨rfl, rfl⟩
  | ok u =>
    cases store.all_names with
    | error e => exact ⟨rfl, rfl⟩
    | ok entries => exact rebuildLoop_sel_high store entries _

/-- Pre-rebuild tree for the C1 counterexample: it owns node 5 (with a links
entry), one selection and a highlighted id. -/
def preC1Tree : Tree :=
  { nodes := fun i => if i = 5 then some ⟨5, "old", none, none⟩ else none
    links := fun i => if i = 5 then some [] else none
    selections := [(1, [2])]
    highlighted := some 3 }

/-- Store for the C1 counterexample: the reader and the first name entry
succeed, and the snapshot read fails partway (at the second entry). -/
def failC1Store : Store :=
  { reader := Except.ok ()
    all_names := Except.ok [Except.ok (4, "a"), Except.error 9]
    due_date := fun _ => Except.ok none
    first_session := fun _ => Except.ok none
    child_ids := fun _ => Except.ok [] }

/-- Claim C1, counterexample: a snapshot read that fails partway makes rebuild
return the error, yet the node map does not equal its pre-rebuild contents:
the entry for id 5 is gone (cleared at entry) and an entry for id 4 from the
processed prefix is present; the links map likewise differs at id 5.  This
refutes the claimed atomicity. -/
theorem rebuild_atomic_counterexample :
    (preC1Tree.rebuild failC1Store).2 = some 9 ∧
    (preC1Tree.rebuild failC1Store).1.nodes 5 ≠ preC1Tree.nodes 5 ∧
    (preC1Tree.rebuild failC1Store).1.nodes 4 ≠ preC1Tree.nodes 4 ∧
    (preC1Tree.rebuild failC1Store).1.links 5 ≠ preC1Tree.links 5 := by
  refine ⟨rfl, ?_, ?_, ?_⟩ <;> decide

/-- Claim C1, amended: rebuild is not atomic; on failure (as on success) the
pre-rebuild node and ownership maps are discarded entirely rather than
retained: the resulting node map, link map and returned error are determined
by the store snapshot alone and do not depend on the pre-rebuild node and
link maps, while selections and highlighted are never touched. -/
theorem rebuild_discards_previous_maps (t1 t2 : Tree) (store : Store) :
    ((t1.rebuild store).1).nodes = ((t2.rebuild store).1).nodes ∧
    ((t1.rebuild store).1).links = ((t2.rebuild store).1).links ∧
    (t1.rebuild store).2 = (t2.rebuild store).2 := by
  unfold Tree.rebuild
  cases store.reader with
  | error e => exact ⟨rfl, rfl, rfl⟩
  | ok u =>
    cases store.all_names with
    | error e => exact ⟨rfl, rfl, rfl⟩
    | ok entries => exact rebuildLoop_congr store entries _ _ rfl rfl

/-! Helper lemmas about the association-list model of the selections map. -/

lemma selLookup_update_self (k : Nat) (v : List Nat) :
    ∀ l, selLookup k (selUpdate k v l) = (selLookup k l).map (fun _ => v) := by
  intro l
  induction l with
  | nil => simp [selLookup, selUpdate]
  | cons e rest ih =>
    by_cases h : e.1 = k
    · simp [selLookup, selUpdate, h]
    · simp [selLookup, selUpdate, h, ih]

lemma selLookup_update_other (k k' : Nat) (v : List Nat) (h : k' ≠ k) :
    ∀ l, selLookup k' (selUpdate k v l) = selLookup k' l := by
  intro l
  induction l with
  | nil => simp [selUpdate]
  | cons e rest ih =>
    by_cases he : e.1 = k
    · have hkk : ¬ (k = k') := fun hh => h hh.symm
      simp [selLookup, selUpdate, he, hkk, ih]
    · simp [selLookup, selUpdate, he, ih]

lemma selLookup_none_of_not_mem (k : Nat) :
    ∀ l, k ∉ List.map (fun (e : Nat × List Nat) => e.1) l → selLookup k l = none := by
  intro l
  induction l with
  | nil => intro _; rfl
  | cons e rest ih =>
    intro hk
    simp only [List.map_cons, List.mem_cons] at hk
    push_neg at hk
    have : ¬ e.1 = k := fun hh => hk.1 hh.symm
    simp [selLookup, this, ih hk.2]

lemma selLookup_erase_self (k : Nat) :
    ∀ l, (List.map (fun (e : Nat × List Nat) => e.1) l).Nodup →
      selLookup k (selErase k l) = none := by
  intro l
  induction l with
  | nil => intro _; rfl
  | cons e rest ih =>
    intro hnd
    simp only [List.map_cons, List.nodup_cons] at hnd
    by_cases he : e.1 = k
    · subst he
      simp only [selErase, if_pos rfl]
      exact selLookup_none_of_not_mem _ _ hnd.1
    · simp [selErase, selLookup, he, ih hnd.2]

lemma selLookup_erase_other (k k' : Nat) (h : k' ≠ k) :
    ∀ l, selLookup k' (selErase k l) = selLookup k' l := by
  intro l
  induction l with
  | nil => simp [selErase]
  | cons e rest ih =>
    by_cases he : e.1 = k
    · have hek : ¬ e.1 = k' := by rw [he]; exact fun hh => h hh.symm
      have hkk : ¬ (k = k') := fun hh => h hh.symm
      simp [selErase, selLookup, he, hek, hkk]
    · simp [selErase, selLookup, he, ih]

lemma not_mem_of_selLookup_none (k : Nat) :
    ∀ l, selLookup k l = none → k ∉ List.map (fun (e : Nat × List Nat) => e.1) l := by
  intro l
  induction l with
  | nil => intro _ h; simp at h
  | cons e rest ih =>
    intro hl hmem
    by_cases he : e.1 = k
    · simp [selLookup, he] at hl
    · simp only [selLookup, if_neg he] at hl
      simp only [List.map_cons, List.mem_cons] at hmem
      rcases hmem with hmem | hmem
      · exact he hmem.symm
      · exact ih hl hmem

lemma selLookup_mem (k : Nat) (v : List Nat) :
    ∀ l, selLookup k l = some v → (k, v) ∈ l := by
  intro l
  induction l with
  | nil => intro h; simp [selLookup] at h
  | cons e rest ih =>
    intro hl
    obtain ⟨e1, e2⟩ := e
    by_cases he : e1 = k
    · simp only [selLookup, he, if_pos] at hl
      subst he
      obtain rfl : e2 = v := by injection hl
      exact List.mem_cons_self _ _
    · simp only [selLookup, if_neg he] at hl
      exact List.mem_cons_of_mem _ (ih hl)

lemma selLookup_append_single (k k' : Nat) (v : List Nat) (l : List (Nat × List Nat)) :
    selLookup k' (l ++ [(k, v)]) =
      match selLookup k' l with
      | some x => some x
      | none => if k = k' then some v else none := by
  induction l with
  | nil => simp [selLookup]
  | cons e rest ih =>
    by_cases he : e.1 = k'
    · simp [selLookup, he]
    · simp [selLookup, he, ih]

lemma selErase_append_self (k : Nat) (v : List Nat) (l : List (Nat × List Nat))
    (h : selLookup k l = none) : selErase k (l ++ [(k, v)]) = l := by
  induction l with
  | nil => simp [selErase]
  | cons e rest ih =>
    by_cases he : e.1 = k
    · simp [selLookup, he] at h
    · simp only [selLookup, if_neg he] at h
      simp [selErase, he, ih h]

lemma selUpdate_selUpdate (k : Nat) (v1 v2 : List Nat) (l : List (Nat × List Nat)) :
    selUpdate k v2 (selUpdate k v1 l) = selUpdate k v2 l := by
  induction l with
  | nil => rfl
  | cons e rest ih =>
    by_cases he : e.1 = k
    · simp [selUpdate, he]
    · simp [selUpdate, he, ih]

lemma selUpdate_lookup_self (k : Nat) (v : List Nat) :
    ∀ l, selLookup k l = some v → selUpdate k v l = l := by
  intro l
  induction l with
  | nil => intro _; rfl
  | cons e rest ih =>
    intro hl
    by_cases he : e.1 = k
    · simp only [selLookup, if_pos he] at hl
      obtain ⟨e1, e2⟩ := e
      simp only at he
      simp only [Option.some_inj] at hl
      simp [selUpdate, he, hl]
    · simp only [selLookup, if_neg he] at hl
      simp [selUpdate, he, ih hl]

lemma mem_selUpdate (k : Nat) (v : List Nat) (e : Nat × List Nat) :
    ∀ l, e ∈ selUpdate k v l → e = (k, v) ∨ e ∈ l := by
  intro l
  induction l with
  | nil => intro h; simp [selUpdate] at h
  | cons f rest ih =>
    intro hmem
    by_cases hf : f.1 = k
    · simp only [selUpdate, if_pos hf, List.mem_cons] at hmem
      rcases hmem with h | h
      · exact Or.inl h
      · exact Or.inr (List.mem_cons_of_mem _ h)
    · simp only [selUpdate, if_neg hf, List.mem_cons] at hmem
      rcases hmem with h | h
      · exact Or.inr (by simp [h])
      · rcases ih h with h' | h'
        · exact Or.inl h'
        · exact Or.inr (List.mem_cons_of_mem _ h')

lemma mem_selErase (k : Nat) (e : Nat × List Nat) :
    ∀ l, e ∈ selErase k l → e ∈ l := by
  intro l
  induction l with
  | nil => intro h; simp [selErase] at h
  | cons f rest ih =>
    intro hmem
    by_cases hf : f.1 = k
    · simp only [selErase, if_pos hf] at hmem
      exact List.mem_cons_of_mem _ hmem
    · simp only [selErase, if_neg hf, List.mem_cons] at hmem
      rcases hmem with h | h
      · simp [h]
      · exact List.mem_cons_of_mem _ (ih h)

lemma eq_singleton_of_erase_nil (a : Nat) (l : List Nat) (hmem : a ∈ l)
    (h : l.erase a = []) : l = [a] := by
  cases l with
  | nil => simp at hmem
  | cons x rest =>
    by_cases hx : x = a
    · subst hx
      simp only [List.erase_cons_head] at h
      simp [h]
    · rw [List.erase_cons_tail] at h
      · simp at h
      · simp [hx]

lemma toggle_sel_of_none (t : Tree) (p c : Nat)
    (h : selLookup c t.selections = none) :
    (t.toggle p c).selections = t.selections ++ [(c, [p])] := by
  simp [Tree.toggle, h]

lemma toggle_sel_of_mem_nil (t : Tree) (p c : Nat) (pids : List Nat)
    (h : selLookup c t.selections = some pids) (hp : p ∈ pids)
    (he : pids.erase p = []) :
    (t.toggle p c).selections = selErase c t.selections := by
  simp [Tree.toggle, h, hp, he]

lemma toggle_sel_of_mem_ne (t : Tree) (p c : Nat) (pids : List Nat)
    (h : selLookup c t.selections = some pids) (hp : p ∈ pids)
    (he : pids.erase p ≠ []) :
    (t.toggle p c).selections = selUpdate c (pids.erase p) t.selections := by
  simp [Tree.toggle, h, hp, he]

lemma toggle_sel_of_not_mem (t : Tree) (p c : Nat) (pids : List Nat)
    (h : selLookup c t.selections = some pids) (hp : p ∉ pids) :
    (t.toggle p c).selections = selUpdate c (pids ++ [p]) t.selections := by
  simp [Tree.toggle, h, hp]

/-- Claim C2: toggle is its own inverse.  For every well-formed tree state
(distinct map keys, duplicate-free parent sets, no empty entries — the
invariants the Rust HashMap/HashSet representation and the pruning in toggle
maintain) and every pair (p, c), toggling twice restores the membership
relation exactly, and the resulting selections map has no empty entry (in
particular none for the affected key c). -/
theorem toggle_involutive (t : Tree) (p c : Nat) (hwf : t.selWF) (hne : t.noEmpty) :
    (∀ p' c', ((t.toggle p c).toggle p c).is_selected p' c' = t.is_selected p' c') ∧
    ((t.toggle p c).toggle p c).noEmpty := by
  cases hl : selLookup c t.selections with
  | none =>
    have h1 : (t.toggle p c).selections = t.selections ++ [(c, [p])] :=
      toggle_sel_of_none t p c hl
    have h2 : selLookup c (t.toggle p c).selections = some [p] := by
      rw [h1, selLookup_append_single, hl]
      simp
    have h3 : ((t.toggle p c).toggle p c).selections = t.selections := by
      rw [toggle_sel_of_mem_nil (t.toggle p c) p c [p] h2 (List.mem_singleton.mpr rfl)
        (List.erase_cons_head p [])]
      rw [h1, selErase_append_self _ _ _ hl]
    refine ⟨?_, ?_⟩
    · intro p' c'
      simp only [Tree.is_selected, h3]
    · intro e he
      rw [h3] at he
      exact hne e he
  | some pids =>
    have hmem_entry : (c, pids) ∈ t.selections := selLookup_mem _ _ _ hl
    have hpids_ne : pids ≠ [] := hne _ hmem_entry
    have hpids_nd : pids.Nodup := hwf.2 _ hmem_entry
    by_cases hp : p ∈ pids
    · by_cases herase : pids.erase p = []
      · -- the toggled parent was the only one: entry removed, then re-created
        have hpids1 : pids = [p] := eq_singleton_of_erase_nil p pids hp herase
        have h1 : (t.toggle p c).selections = selErase c t.selections :=
          toggle_sel_of_mem_nil t p c pids hl hp herase
        have h2 : selLookup c (t.toggle p c).selections = none := by
          rw [h1]
          exact selLookup_erase_self _ _ hwf.1
        have h3 : ((t.toggle p c).toggle p c).selections
            = selErase c t.selections ++ [(c, [p])] := by
          rw [toggle_sel_of_none (t.toggle p c) p c h2, h1]
        refine ⟨?_, ?_⟩
        · intro p' c'
          simp only [Tree.is_selected, h3]
          by_cases hc : c' = c
          · subst hc
            rw [selLookup_append_single]
            rw [selLookup_erase_self _ _ hwf.1]
            rw [hl]
            simp [hpids1]
          · rw [selLookup_append_single]
            rw [selLookup_erase_other _ _ hc]
            cases hx : selLookup c' t.selections with
            | none =>
              have hcc : ¬ (c = c') := fun hh => hc hh.symm
              simp [hcc]
            | some x => simp
        · intro e he
          rw [h3] at he
          rcases List.mem_append.mp he with h | h
          · exact hne e (mem_selErase _ _ _ h)
          · simp only [List.mem_cons, List.not_mem_nil, or_false] at h
            subst h
            simp
      · -- other parents remain: the pid is removed then re-appended
        have h1 : (t.toggle p c).selections = selUpdate c (pids.erase p) t.selections :=
          toggle_sel_of_mem_ne t p c pids hl hp herase
        have h2 : selLookup c (t.toggle p c).selections = some (pids.erase p) := by
          rw [h1, selLookup_update_self, hl]
          rfl
        have hpe : p ∉ pids.erase p := hpids_nd.not_mem_erase
        have h3 : ((t.toggle p c).toggle p c).selections
            = selUpdate c (pids.erase p ++ [p]) t.selections := by
          rw [toggle_sel_of_not_mem (t.toggle p c) p c (pids.erase p) h2 hpe, h1]
          rw [selUpdate_selUpdate]
        refine ⟨?_, ?_⟩
        · intro p' c'
          simp only [Tree.is_selected, h3]
          by_cases hc : c' = c
          · subst hc
            rw [selLookup_update_self, hl]
            have hiff : (p' ∈ pids.erase p ++ [p]) ↔ p' ∈ pids := by
              by_cases hpp' : p' = p
              · subst hpp'
                simp [hp]
              · simp only [List.mem_append, List.mem_cons, List.not_mem_nil, or_false]
                rw [List.mem_erase_of_ne hpp']
                simp [hpp']
            simp [hiff]
          · rw [selLookup_update_other _ _ _ hc]
        · intro e he
          rw [h3] at he
          rcases mem_selUpdate _ _ _ _ he with h | h
          · subst h
            simp
          · exact hne e h
    · -- the pid was absent: appended to the set, then erased again
      have h1 : (t.toggle p c).selections = selUpdate c (pids ++ [p]) t.selections :=
        toggle_sel_of_not_mem t p c pids hl hp
      have h2 : selLookup c (t.toggle p c).selections = some (pids ++ [p]) := by
        rw [h1, selLookup_update_self, hl]
        rfl
      have hpp : p ∈ pids ++ [p] := by simp
      have herase2 : (pids ++ [p]).erase p = pids := by
        rw [List.erase_append_right _ hp]
        simp
      have herase3 : (pids ++ [p]).erase p ≠ [] := by
        rw [herase2]
        exact hpids_ne
      have h3 : ((t.toggle p c).toggle p c).selections = t.selections := by
        rw [toggle_sel_of_mem_ne (t.toggle p c) p c (pids ++ [p]) h2 hpp herase3, h1]
        rw [herase2, selUpdate_selUpdate, selUpdate_lookup_self _ _ _ hl]
      refine ⟨?_, ?_⟩
      · intro p' c'
        simp only [Tree.is_selected, h3]
      · intro e he
        rw [h3] at he
        exact hne e he

/-- Concrete tree used in witnesses for the toggle and enumeration claims. -/
def selsTree : Tree :=
  { nodes := fun _ => none
    links := fun _ => none
    selections := [(7, [5]), (8, [5, 6])]
    highlighted := none }

/-- Witness for C2 at a concrete input: the tree holding selections
(7 under 5) and (8 under 5 and 6), toggled twice at (5, 7). -/
theorem toggle_involutive_witness :
    (∀ p' c', ((selsTree.toggle 5 7).toggle 5 7).is_selected p' c'
      = selsTree.is_selected p' c') ∧
    ((selsTree.toggle 5 7).toggle 5 7).noEmpty :=
  toggle_involutive selsTree 5 7
    (by constructor
        · decide
        · intro e he
          fin_cases he <;> decide)
    (by intro e he
        fin_cases he <;> decide)

lemma selLookup_of_mem_nodup (c : Nat) (v : List Nat) :
    ∀ l, (List.map (fun (e : Nat × List Nat) => e.1) l).Nodup → (c, v) ∈ l →
      selLookup c l = some v := by
  intro l
  induction l with
  | nil => intro _ h; simp at h
  | cons e rest ih =>
    intro hnd hmem
    simp only [List.map_cons, List.nodup_cons] at hnd
    rcases List.mem_cons.mp hmem with h | h
    · rw [← h]
      simp [selLookup]
    · have hc : c ∈ List.map (fun (e : Nat × List Nat) => e.1) rest :=
        List.mem_map.mpr ⟨(c, v), h, rfl⟩
      have he : ¬ e.1 = c := fun hh => hnd.1 (hh ▸ hc)
      simp only [selLookup, if_neg he]
      exact ih hnd.2 h

/-- Claim C9: on a tree with zero selections both enumeration methods yield
the empty sequence (not an error — the model is total exactly because the
code guards the empty map with an explicit empty iterator rather than
indexing into an absent entry); on a tree with selections, selectionPairs
enumerates exactly the currently selected (parent, id) pairs and
selection_ids the distinct selected ids. -/
theorem selections_enumeration (t : Tree) (hwf : t.selWF) (hne : t.noEmpty) :
    (t.selections = [] → t.selectionPairs = [] ∧ t.selection_ids = []) ∧
    (∀ p c, (p, c) ∈ t.selectionPairs ↔ t.is_selected p c = true) ∧
    (∀ c, c ∈ t.selection_ids ↔ ∃ p, t.is_selected p c = true) ∧
    t.selection_ids.Nodup := by
  by_cases hemp : t.selections = []
  · refine ⟨?_, ?_, ?_, ?_⟩
    · intro _
      exact ⟨by simp [Tree.selectionPairs, hemp], by simp [Tree.selection_ids, hemp]⟩
    · intro p c
      simp [Tree.selectionPairs, Tree.is_selected, hemp, selLookup]
    · intro c
      simp [Tree.selection_ids, Tree.is_selected, hemp, selLookup]
    · simp [Tree.selection_ids, hemp]
  · have hne' : t.selections.isEmpty = false := by
      simp [List.isEmpty_iff, hemp]
    have hpairs : t.selectionPairs
        = t.selections.flatMap (fun e => e.2.map (fun pid => (pid, e.1))) := by
      simp [Tree.selectionPairs, hne']
    have hids : t.selection_ids = t.selections.map (fun e => e.1) := by
      simp [Tree.selection_ids, hne']
    refine ⟨fun h => absurd h hemp, ?_, ?_, ?_⟩
    · intro p c
      rw [hpairs]
      constructor
      · intro hmem
        rw [List.mem_flatMap] at hmem
        obtain ⟨e, hmeme, hin⟩ := hmem
        rw [List.mem_map] at hin
        obtain ⟨pid, hpid, hpair⟩ := hin
        have hpe : pid = p := congrArg Prod.fst hpair
        have hce : e.1 = c := congrArg Prod.snd hpair
        subst hpe
        have hlook : selLookup c t.selections = some e.2 := by
          apply selLookup_of_mem_nodup _ _ _ hwf.1
          rw [← hce]
          exact hmeme
        simp [Tree.is_selected, hlook, hpid]
      · intro hsel
        simp only [Tree.is_selected] at hsel
        cases hlook : selLookup c t.selections with
        | none => rw [hlook] at hsel; simp at hsel
        | some pids =>
          rw [hlook] at hsel
          simp only [decide_eq_true_eq] at hsel
          have hmem : (c, pids) ∈ t.selections := selLookup_mem _ _ _ hlook
          rw [List.mem_flatMap]
          exact ⟨(c, pids), hmem, by
            rw [List.mem_map]
            exact ⟨p, hsel, rfl⟩⟩
    · intro c
      rw [hids]
      constructor
      · intro hmem
        rw [List.mem_map] at hmem
        obtain ⟨e, hmeme, hce⟩ := hmem
        have hepair : e = (c, e.2) := by
          obtain ⟨e1, e2⟩ := e
          simp only at hce
          rw [hce]
        have hlook : selLookup c t.selections = some e.2 := by
          apply selLookup_of_mem_nodup _ _ _ hwf.1
          rw [← hepair]
          exact hmeme
        have hnee : e.2 ≠ [] := hne _ hmeme
        obtain ⟨q, hq⟩ : ∃ q, q ∈ e.2 := by
          cases he2 : e.2 with
          | nil => exact absurd he2 hnee
          | cons a rest =>
            exact ⟨a, he2 ▸ List.mem_cons_self a rest⟩
        exact ⟨q, by simp [Tree.is_selected, hlook, hq]⟩
      · intro hsel
        obtain ⟨q, hq⟩ := hsel
        simp only [Tree.is_selected] at hq
        cases hlook : selLookup c t.selections with
        | none => rw [hlook] at hq; simp at hq
        | some pids =>
          have hmem : (c, pids) ∈ t.selections := selLookup_mem _ _ _ hlook
          rw [List.mem_map]
          exact ⟨(c, pids), hmem, rfl⟩
    · rw [hids]
      exact hwf.1

/-- Tree with zero selections for the C9 witness. -/
def noSelTree : Tree :=
  { nodes := fun _ => none
    links := fun _ => none
    selections := []
    highlighted := none }

/-- Witness for C9 at a concrete input: the zero-selection tree, for which
the empty-map branch of both iterators is exercised. -/
theorem selections_enumeration_witness :
    (noSelTree.selections = [] → noSelTree.selectionPairs = [] ∧ noSelTree.selection_ids = []) ∧
    (∀ p c, (p, c) ∈ noSelTree.selectionPairs ↔ noSelTree.is_selected p c = true) ∧
    (∀ c, c ∈ noSelTree.selection_ids ↔ ∃ p, noSelTree.is_selected p c = true) ∧
    noSelTree.selection_ids.Nodup :=
  selections_enumeration noSelTree
    (by constructor
        · decide
        · intro e he
          simp [noSelTree] at he)
    (by intro e he
        simp [noSelTree] at he)


/-! Flattening: characterization lemmas and per-claim theorems. -/

lemma sorted_det_map_enumFrom (t : Tree) (fn : FNode) (tot : Nat) :
    ∀ (l : List Nat) (n : Nat),
      List.Sorted detLe ((List.enumFrom n l).map (fun p =>
        ({ id := p.2, path := fn.path, pid := fn.id, depth := fn.path.length,
           selected := t.is_selected fn.id p.2, priority := ⟨p.1, tot⟩ } : FNode))) := by
  intro l
  induction l with
  | nil => intro n; simp
  | cons c cs ih =>
    intro n
    rw [List.enumFrom_cons, List.map_cons, List.sorted_cons]
    constructor
    · intro b hb
      rw [List.mem_map] at hb
      obtain ⟨p, hp, hpb⟩ := hb
      obtain ⟨p1, p2⟩ := p
      have hrange := List.mem_enumFrom hp
      subst hpb
      show n ≤ p1
      omega
    · exact ih (n + 1)

/-- The sort inside FChildIter::new is the identity: det ranks are assigned
by position, so the built list is already sorted by det. -/
lemma fchildren_eq (t : Tree) (fn : FNode) :
    fchildren t fn = (t.childIds fn.id).enum.map (fun p =>
      ({ id := p.2, path := fn.path, pid := fn.id, depth := fn.path.length,
         selected := t.is_selected fn.id p.2,
         priority := ⟨p.1, (t.childIds fn.id).length⟩ } : FNode)) := by
  unfold fchildren
  exact List.Sorted.insertionSort_eq
    (sorted_det_map_enumFrom t fn (t.childIds fn.id).length (t.childIds fn.id) 0)

/-- Claim C7, amended: for a tree whose root has no children, flatten returns
exactly one row — the root FlatNode at depth 0 with path [0] and rank 0 of 1
— for every viewport bound that the root row itself fits under (rather than
for every positive viewport: when even the root row exceeds the bound the
result is empty, as the stop-immediately rule of the algorithm dictates). -/
theorem flatten_single_root (t : Tree) (H : Nat → Nat) (y0 maxy pid id fuel : Nat)
    (hleaf : t.childIds id = [])
    (hfit : y0 + H id ≤ maxy) :
    flattree t H y0 maxy pid id (fuel + 1) = ([rootFNode t pid id], true) := by
  have hnotlt : ¬ (maxy < y0 + H id) := by omega
  have hch : fchildren t (rootFNode t pid id) = [] := by
    rw [fchildren_eq]
    show ((t.childIds id).enum.map _) = []
    rw [hleaf]
    rfl
  simp only [flattree, if_neg hnotlt, flatOuter, List.drop_zero, List.map_cons, List.map_nil,
    hch, queueMeasure, List.length_nil, List.sum_cons, List.sum_nil, flatInner,
    List.length_cons, sortByPath, List.insertionSort]
  norm_num

/-- Tree whose every node has no children (links entries all empty). -/
def noChildTree : Tree :=
  { nodes := fun _ => none
    links := fun _ => some []
    selections := []
    highlighted := none }

/-- Witness for the amended C7 at a concrete input: childless root, unit row
heights, viewport 5. -/
theorem flatten_single_root_witness :
    flattree noChildTree (fun _ => 1) 0 5 0 0 10 = ([rootFNode noChildTree 0 0], true) :=
  flatten_single_root noChildTree (fun _ => 1) 0 5 0 0 9 (by decide) (by decide)

/-- Claim C7, counterexample: with a positive viewport bound (1) smaller than
the root row height (2), flatten on a childless root returns no rows at all,
refuting the claim that any positive viewport yields exactly one row. -/
theorem flatten_single_root_counterexample :
    0 < 1 ∧ (flattree noChildTree (fun _ => 2) 0 1 0 0 10).1 = [] :=
  ⟨Nat.one_pos, by decide⟩

/-- Claim C6: for a viewport bound that fits exactly the root plus the root's
first child but not the second child, flatten returns exactly the two rows
root and first child: the child whose placement would exceed the viewport is
silently dropped while everything already placed is kept. -/
theorem flatten_viewport_cut (t : Tree) (H : Nat → Nat) (y0 maxy pid id fuel : Nat)
    (c1 c2 : Nat) (rest : List Nat)
    (hch : t.childIds id = c1 :: c2 :: rest)
    (hfit : y0 + H id + H c1 ≤ maxy)
    (hover : maxy < y0 + H id + H c1 + H c2) :
    (flattree t H y0 maxy pid id (fuel + 1)).1 =
      [rootFNode t pid id,
       ⟨c1, [0, 1], id, 1, t.is_selected id c1, ⟨0, rest.length + 2⟩⟩] := by
  have hnotlt1 : ¬ (maxy < y0 + H id) := by omega
  have hnotlt2 : ¬ (maxy < y0 + H id + H c1) := by omega
  have hchildren : fchildren t (rootFNode t pid id) =
      (⟨c1, [0], id, 1, t.is_selected id c1, ⟨0, rest.length + 2⟩⟩ : FNode) ::
      (⟨c2, [0], id, 1, t.is_selected id c2, ⟨1, rest.length + 2⟩⟩ : FNode) ::
      (List.enumFrom 2 rest).map (fun p =>
        ({ id := p.2, path := [0], pid := id, depth := 1,
           selected := t.is_selected id p.2,
           priority := ⟨p.1, rest.length + 2⟩ } : FNode)) := by
    rw [fchildren_eq]
    simp [rootFNode, hch, List.enum_cons, List.enumFrom_cons]
  simp only [flattree, if_neg hnotlt1, flatOuter, List.drop_zero, List.map_cons, List.map_nil,
    hchildren, queueMeasure, List.sum_cons, List.sum_nil, List.length_cons, List.length_map,
    List.enumFrom_length, flatInner, List.cons_append, List.nil_append, List.length_nil,
    if_neg hnotlt2, if_pos hover]
  simp [sortByPath, List.insertionSort, List.orderedInsert, rowLe, pathLe]

/-- Tree for the C6 witness: root 0 with children 1 and 2. -/
def cutTree : Tree :=
  { nodes := fun _ => none
    links := fun i => some (if i = 0 then [1, 2] else [])
    selections := []
    highlighted := none }

/-- Witness for C6 at a concrete input: unit heights, viewport 2 fits exactly
the root plus the first child. -/
theorem flatten_viewport_cut_witness :
    (flattree cutTree (fun _ => 1) 0 2 0 0 10).1 =
      [rootFNode cutTree 0 0,
       ⟨1, [0, 1], 0, 1, cutTree.is_selected 0 1, ⟨0, 2⟩⟩] :=
  flatten_viewport_cut cutTree (fun _ => 1) 0 2 0 0 9 1 2 []
    (by decide) (by decide) (by decide)

/-! Connector-color map lemmas for claim C5. -/

lemma buildColorMap_untouched (hash : Nat → Color) (id : Nat) :
    ∀ (rows : List FNode) (m : Nat → Option Color),
      (∀ r ∈ rows, r.id ≠ id) → buildColorMap hash m rows id = m id := by
  intro rows
  induction rows with
  | nil => intro m _; rfl
  | cons row rest ih =>
    intro m hall
    have hrow : row.id ≠ id := hall row (List.mem_cons_self _ _)
    have hrest : ∀ r ∈ rest, r.id ≠ id := fun r hr => hall r (List.mem_cons_of_mem _ hr)
    have hid' : ¬ (id = row.id) := fun hh => hrow hh.symm
    cases hm : m row.id with
    | none =>
      simp only [buildColorMap, hm]
      rw [ih _ hrest]
      simp [hid']
    | some c =>
      by_cases hc : c = white
      · simp only [buildColorMap, hm, if_pos hc]
        rw [ih _ hrest]
        simp [hid']
      · simp only [buildColorMap, hm, if_neg hc]
        exact ih _ hrest

lemma buildColorMap_stable (hash : Nat → Color) (id : Nat) (c : Color) (hc : c ≠ white) :
    ∀ (rows : List FNode) (m : Nat → Option Color),
      m id = some c → buildColorMap hash m rows id = some c := by
  intro rows
  induction rows with
  | nil => intro m hm; exact hm
  | cons row rest ih =>
    intro m hm
    by_cases hid : row.id = id
    · simp only [buildColorMap, hid, hm, if_neg hc]
      exact ih _ hm
    · have hid' : ¬ (id = row.id) := fun hh => hid hh.symm
      cases hmr : m row.id with
      | none =>
        simp only [buildColorMap, hmr]
        apply ih
        simp [hid', hm]
      | some cr =>
        by_cases hcr : cr = white
        · simp only [buildColorMap, hmr, if_pos hcr]
          apply ih
          simp [hid', hm]
        · simp only [buildColorMap, hmr, if_neg hcr]
          exact ih _ hm

lemma buildColorMap_from_white (hash : Nat → Color) (id : Nat) :
    ∀ (rows : List FNode) (m : Nat → Option Color),
      m id = some white →
      buildColorMap hash m rows id =
        (if (rows.filter (fun r => r.id = id)).length = 0 then some white
         else some (hash id)) := by
  intro rows
  induction rows with
  | nil => intro m hm; simpa using hm
  | cons row rest ih =>
    intro m hm
    by_cases hid : row.id = id
    · have hfil : ((row :: rest).filter (fun r => r.id = id)).length
          = (rest.filter (fun r => r.id = id)).length + 1 := by
        simp [List.filter_cons, hid]
      rw [hfil]
      simp only [buildColorMap, hid, hm]
      rw [if_true]
      have hm' : (fun k => if k = id then some (hash id) else m k) id = some (hash id) := by
        simp
      rw [if_neg (Nat.succ_ne_zero _)]
      by_cases hhw : hash id = white
      · rw [ih _ (by simp [hhw])]
        by_cases h0 : (rest.filter (fun r => r.id = id)).length = 0 <;>
          simp [h0, hhw]
      · exact buildColorMap_stable hash id (hash id) hhw _ _ hm' 
    · have hfil : ((row :: rest).filter (fun r => r.id = id)).length
          = (rest.filter (fun r => r.id = id)).length := by
        simp [List.filter_cons, hid]
      rw [hfil]
      have hid' : ¬ (id = row.id) := fun hh => hid hh.symm
      cases hmr : m row.id with
      | none =>
        simp only [buildColorMap, hmr]
        apply ih
        simp [hid', hm]
      | some cr =>
        by_cases hcr : cr = white
        · simp only [buildColorMap, hmr, if_pos hcr]
          apply ih
          simp [hid', hm]
        · simp only [buildColorMap, hmr, if_neg hcr]
          exact ih _ hm

lemma buildColorMap_from_none (hash : Nat → Color) (id : Nat) :
    ∀ (rows : List FNode) (m : Nat → Option Color),
      m id = none →
      buildColorMap hash m rows id =
        (if (rows.filter (fun r => r.id = id)).length = 0 then none
         else if (rows.filter (fun r => r.id = id)).length = 1 then some white
         else some (hash id)) := by
  intro rows
  induction rows with
  | nil => intro m hm; simpa using hm
  | cons row rest ih =>
    intro m hm
    by_cases hid : row.id = id
    · have hfil : ((row :: rest).filter (fun r => r.id = id)).length
          = (rest.filter (fun r => r.id = id)).length + 1 := by
        simp [List.filter_cons, hid]
      rw [hfil]
      simp only [buildColorMap, hid, hm]
      rw [buildColorMap_from_white hash id rest _ (by simp)]
      by_cases h0 : (rest.filter (fun r => r.id = id)).length = 0
      · have h1 : (rest.filter (fun r => r.id = id)).length + 1 = 1 := by omega
        simp [h0, h1]
      · have h1 : ¬ ((rest.filter (fun r => r.id = id)).length + 1 = 0) := by omega
        have h2 : ¬ ((rest.filter (fun r => r.id = id)).length + 1 = 1) := by omega
        simp [h0, h1, h2]
    · have hfil : ((row :: rest).filter (fun r => r.id = id)).length
          = (rest.filter (fun r => r.id = id)).length := by
        simp [List.filter_cons, hid]
      rw [hfil]
      have hid' : ¬ (id = row.id) := fun hh => hid hh.symm
      cases hmr : m row.id with
      | none =>
        simp only [buildColorMap, hmr]
        apply ih
        simp [hid', hm]
      | some cr =>
        by_cases hcr : cr = white
        · simp only [buildColorMap, hmr, if_pos hcr]
          apply ih
          simp [hid', hm]
        · simp only [buildColorMap, hmr, if_neg hcr]
          exact ih _ hm

/-- Characterization of the final per-id connector color: an id absent from
the rows has no entry, an id occurring exactly once keeps the default white,
and an id occurring two or more times ends at the hash-derived color — one
shared entry read for every occurrence of the id. -/
lemma colorMap_spec (hash : Nat → Color) (id : Nat) (rows : List FNode) :
    colorMap hash rows id =
      (if (rows.filter (fun r => r.id = id)).length = 0 then none
       else if (rows.filter (fun r => r.id = id)).length = 1 then some white
       else some (hash id)) :=
  buildColorMap_from_none hash id rows _ rfl

/-- Tree for claim C5: node 3 is a structural child of 2 only, and is marked
selected under 1 (both 1 and 2 are children of the root 0). -/
def selParentTree : Tree :=
  { nodes := fun _ => none
    links := fun i => some (if i = 0 then [1, 2] else if i = 2 then [3] else [])
    selections := [(3, [1])]
    highlighted := none }

/-- Tree whose node 3 occurs in the child lists of both 1 and 2 (the store
itself reports it under two parents). -/
def dupLinkTree : Tree :=
  { nodes := fun _ => none
    links := fun i => some (if i = 0 then [1, 2]
                            else if i = 1 then [3]
                            else if i = 2 then [3] else [])
    selections := []
    highlighted := none }

/-- Claim C5, counterexample: node 3 is a structural child of 2, is selected
under 1, and a single flatten pass with ample viewport reaches both 1 and 2
(all four nodes are placed), yet only one FlatNode row for 3 is produced —
the traversal expands structural children only, so a membership mark under a
second parent does not create a second row, refuting the claim. -/
theorem flatten_selection_counterexample :
    selParentTree.childIds 2 = [3] ∧
    selParentTree.is_selected 1 3 = true ∧
    ((flattree selParentTree (fun _ => 1) 0 100 0 0 10).1.map (fun r => r.id)
      = [0, 1, 2, 3]) ∧
    ¬ (2 ≤ ((flattree selParentTree (fun _ => 1) 0 100 0 0 10).1.filter
        (fun r => r.id = 3)).length) := by
  refine ⟨by decide, by decide, by decide, by decide⟩

/-- Claim C5, amended: a flatten pass produces one row for a node per
occurrence of it in a placed parent's structural child list; marking it
selected under a second parent adds no row, so in the claimed scenario
exactly one row for x results (with the default white connector color).  Two
rows for the same id do arise when the store reports it under two parents'
child lists, and then both occurrences share the single per-id map entry —
the hash-derived color that replaced the default white — so the color of the
second occurrence equals that of the first rather than differing from it. -/
theorem flatten_selection_one_row (hash : Nat → Color) :
    ((flattree selParentTree (fun _ => 1) 0 100 0 0 10).1.filter
      (fun r => r.id = 3)).length = 1 ∧
    colorMap hash (flattree selParentTree (fun _ => 1) 0 100 0 0 10).1 3 = some white ∧
    ((flattree dupLinkTree (fun _ => 1) 0 100 0 0 10).1.filter
      (fun r => r.id = 3)).length = 2 ∧
    colorMap hash (flattree dupLinkTree (fun _ => 1) 0 100 0 0 10).1 3 = some (hash 3) := by
  refine ⟨by decide, ?_, by decide, ?_⟩
  · rw [colorMap_spec]
    have hc : ((flattree selParentTree (fun _ => 1) 0 100 0 0 10).1.filter
        (fun r => r.id = 3)).length = 1 := by decide
    rw [hc]
    simp
  · rw [colorMap_spec]
    have hc : ((flattree dupLinkTree (fun _ => 1) 0 100 0 0 10).1.filter
        (fun r => r.id = 3)).length = 2 := by decide
    rw [hc]
    simp

/-! Viewport bound invariant (claim C4). -/

/-- Total externally measured height of a row list. -/
def sumH (H : Nat → Nat) (rows : List FNode) : Nat :=
  (rows.map (fun r => H r.id)).sum

lemma sumH_append (H : Nat → Nat) (rows : List FNode) (r : FNode) :
    sumH H (rows ++ [r]) = sumH H rows + H r.id := by
  simp [sumH]

/-- The inner loop keeps the running widget-placer position equal to the base
offset plus the total height of the kept rows, and never keeps a row set
whose total height overflows the viewport. -/
lemma flatInner_bound (H : Nat → Nat) (maxy : Nat) :
    ∀ (fuel : Nat) (q : List (List FNode)) (y base : Nat) (rows : List FNode),
      y = base + sumH H rows → y ≤ maxy →
      base + sumH H (flatInner H maxy fuel y rows q).2.1 ≤ maxy ∧
      ((flatInner H maxy fuel y rows q).2.2 = false →
        (flatInner H maxy fuel y rows q).1
          = base + sumH H (flatInner H maxy fuel y rows q).2.1) := by
  intro fuel
  induction fuel with
  | zero =>
    intro q y base rows hy hle
    exact ⟨hy ▸ hle, fun _ => hy⟩
  | succ fuel ih =>
    intro q y base rows hy hle
    cases q with
    | nil =>
      exact ⟨hy ▸ hle, fun _ => hy⟩
    | cons it queue =>
      cases it with
      | nil =>
        simp only [flatInner]
        exact ih queue y base rows hy hle
      | cons c cs =>
        simp only [flatInner]
        by_cases hbreak : maxy < y + H c.id
        · rw [if_pos hbreak]
          exact ⟨hy ▸ hle, fun h => absurd h (by simp)⟩
        · rw [if_neg hbreak]
          apply ih (queue ++ [cs]) (y + H c.id) base
          · rw [sumH_append]
            dsimp only
            omega
          · omega

/-- The outer loop preserves the viewport bound on the total height of the
rows it returns. -/
lemma flatOuter_bound (t : Tree) (H : Nat → Nat) (maxy : Nat) :
    ∀ (fuel start y base : Nat) (rows : List FNode),
      y = base + sumH H rows → y ≤ maxy →
      base + sumH H (flatOuter t H maxy fuel start y rows).1 ≤ maxy := by
  intro fuel
  induction fuel with
  | zero =>
    intro start y base rows hy hle
    exact hy ▸ hle
  | succ fuel ih =>
    intro start y base rows hy hle
    simp only [flatOuter]
    have hinner := flatInner_bound H maxy
      (queueMeasure ((rows.drop start).map (fun r => fchildren t r)))
      ((rows.drop start).map (fun r => fchildren t r)) y base rows hy hle
    cases hres : flatInner H maxy
        (queueMeasure ((rows.drop start).map (fun r => fchildren t r))) y rows
        ((rows.drop start).map (fun r => fchildren t r)) with
    | mk y' rest =>
      obtain ⟨rows', broke⟩ := rest
      rw [hres] at hinner
      cases broke with
      | true => simpa using hinner.1
      | false =>
        simp only at hinner
        dsimp only
        by_cases hstop : rows.length = rows'.length
        · rw [if_pos hstop]
          exact hinner.1
        · rw [if_neg hstop]
          exact ih rows.length y' base rows' (hinner.2 trivial) (hinner.2 trivial ▸ hinner.1)

lemma placeTops_le (H : Nat → Nat) :
    ∀ (rows : List FNode) (y0 : Nat) (x : FNode × Nat),
      x ∈ placeTops H y0 rows → x.2 + H x.1.id ≤ y0 + sumH H rows := by
  intro rows
  induction rows with
  | nil => intro y0 x hx; simp [placeTops] at hx
  | cons r rest ih =>
    intro y0 x hx
    simp only [placeTops, List.mem_cons] at hx
    rcases hx with hx | hx
    · subst hx
      simp only [sumH, List.map_cons, List.sum_cons]
      omega
    · have := ih (y0 + H r.id) x hx
      simp only [sumH, List.map_cons, List.sum_cons] at *
      omega

lemma sumH_sortByPath (H : Nat → Nat) (rows : List FNode) :
    sumH H (sortByPath rows) = sumH H rows := by
  unfold sumH sortByPath
  exact List.Perm.sum_eq (List.Perm.map _ (List.perm_insertionSort _ rows))

/-- Claim C4: flatten never returns a row whose top-of-placement exceeds the
supplied viewport bound (proved for every viewport bound, in particular any
bound at least the height of a single root row), and when even the root's
next-widget position exceeds the bound the result is the empty sequence — a
valid outcome of the total function, not an error. -/
theorem flatten_viewport_bound (t : Tree) (H : Nat → Nat) (y0 maxy pid id fuel : Nat) :
    (∀ x ∈ placeTops H y0 (flattree t H y0 maxy pid id fuel).1, x.2 ≤ maxy) ∧
    (maxy < y0 + H id → (flattree t H y0 maxy pid id fuel).1 = []) := by
  constructor
  · intro x hx
    by_cases hroot : maxy < y0 + H id
    · simp only [flattree, if_pos hroot] at hx
      simp [placeTops] at hx
    · simp only [flattree, if_neg hroot] at hx
      have hbase : y0 + H id = y0 + sumH H [rootFNode t pid id] := by
        simp [sumH, rootFNode]
      have hbound := flatOuter_bound t H maxy fuel 0 (y0 + H id) y0 [rootFNode t pid id]
        hbase (by omega)
      cases hres : flatOuter t H maxy fuel 0 (y0 + H id) [rootFNode t pid id] with
      | mk rows completed =>
        rw [hres] at hbound hx
        simp only at hx
        dsimp only at hbound
        have htop := placeTops_le H (sortByPath rows) y0 x hx
        rw [sumH_sortByPath] at htop
        omega
  · intro hroot
    simp [flattree, if_pos hroot]

/-- Witness for C4 at concrete inputs: tops bounded for the two-child tree
under viewport 2, and the empty result when the root row (height 2) exceeds
the positive viewport 1. -/
theorem flatten_viewport_bound_witness :
    (∀ x ∈ placeTops (fun _ => 1) 0 (flattree cutTree (fun _ => 1) 0 2 0 0 10).1,
      x.2 ≤ 2) ∧
    (flattree noChildTree (fun _ => 2) 0 1 0 0 10).1 = [] :=
  ⟨(flatten_viewport_bound cutTree (fun _ => 1) 0 2 0 0 10).1,
   (flatten_viewport_bound noChildTree (fun _ => 2) 0 1 0 0 10).2 (by decide)⟩

/-! Path-order facts and first-row-is-root (claim C10). -/

lemma pathLe_total : ∀ (p q : List Nat), pathLe p q = true ∨ pathLe q p = true := by
  intro p
  induction p with
  | nil => intro q; left; rfl
  | cons a as ih =>
    intro q
    cases q with
    | nil => right; rfl
    | cons b bs =>
      rcases Nat.lt_trichotomy a b with h | h | h
      · left
        simp [pathLe, h]
      · subst h
        rcases ih bs with h2 | h2
        · left
          simp [pathLe, Nat.lt_irrefl, h2]
        · right
          simp [pathLe, Nat.lt_irrefl, h2]
      · right
        simp [pathLe, h]

lemma pathLe_trans : ∀ (p q r : List Nat),
    pathLe p q = true → pathLe q r = true → pathLe p r = true := by
  intro p
  induction p with
  | nil => intro q r _ _; rfl
  | cons a as ih =>
    intro q r hpq hqr
    cases q with
    | nil => simp [pathLe] at hpq
    | cons b bs =>
      cases r with
      | nil => simp [pathLe] at hqr
      | cons c cs =>
        simp only [pathLe] at hpq hqr ⊢
        by_cases hab : a < b
        · have hbc : b ≤ c := by
            by_cases h1 : b < c
            · omega
            · by_cases h2 : c < b
              · simp [h1, h2] at hqr
              · omega
          have hac : a < c := by omega
          simp [hac]
        · by_cases hba : b < a
          · simp [hab, hba] at hpq
          · have hab' : a = b := by omega
            subst hab'
            simp only [if_neg hab, if_neg hba] at hpq
            by_cases hbc : a < c
            · simp [hbc]
            · by_cases hcb : c < a
              · simp [hbc, hcb] at hqr
              · have : a = c := by omega
                subst this
                simp only [if_neg hbc, if_neg hcb] at hqr ⊢
                exact ih bs cs hpq hqr

instance : IsTotal FNode rowLe :=
  ⟨fun a b => by
    rcases pathLe_total a.path b.path with h | h
    · exact Or.inl h
    · exact Or.inr h⟩

instance : IsTrans FNode rowLe :=
  ⟨fun a b c hab hbc => pathLe_trans a.path b.path c.path hab hbc⟩

lemma pathLe_zero_left (p : List Nat) (hp : p.head? = some 0) : pathLe [0] p = true := by
  cases p with
  | nil => simp at hp
  | cons x rest =>
    simp only [List.head?_cons, Option.some_inj] at hp
    subst hp
    simp [pathLe]

lemma eq_zero_of_pathLe_zero (p : List Nat) (hp : p.head? = some 0)
    (h : pathLe p [0] = true) : p = [0] := by
  cases p with
  | nil => simp at hp
  | cons x rest =>
    simp only [List.head?_cons, Option.some_inj] at hp
    subst hp
    simp only [pathLe, Nat.lt_irrefl, if_neg] at h
    cases rest with
    | nil => rfl
    | cons y ys => simp [pathLe] at h

lemma fchildren_path (t : Tree) (fn : FNode) : ∀ c ∈ fchildren t fn, c.path = fn.path := by
  intro c hc
  rw [fchildren_eq, List.mem_map] at hc
  obtain ⟨p, _, hp⟩ := hc
  subst hp
  rfl

/-- The inner loop only appends rows: its result extends the input rows. -/
lemma flatInner_prefix (H : Nat → Nat) (maxy : Nat) :
    ∀ (fuel : Nat) (q : List (List FNode)) (y : Nat) (rows : List FNode),
      ∃ ext, (flatInner H maxy fuel y rows q).2.1 = rows ++ ext := by
  intro fuel
  induction fuel with
  | zero => intro q y rows; exact ⟨[], by simp [flatInner]⟩
  | succ fuel ih =>
    intro q y rows
    cases q with
    | nil => exact ⟨[], by simp [flatInner]⟩
    | cons it queue =>
      cases it with
      | nil =>
        simp only [flatInner]
        exact ih queue y rows
      | cons c cs =>
        simp only [flatInner]
        by_cases hbreak : maxy < y + H c.id
        · rw [if_pos hbreak]
          exact ⟨[], by simp⟩
        · rw [if_neg hbreak]
          obtain ⟨ext, hext⟩ := ih (queue ++ [cs]) (y + H c.id)
            (rows ++ [{ c with path := c.path ++ [rows.length] }])
          exact ⟨{ c with path := c.path ++ [rows.length] } :: ext, by
            rw [hext, List.append_assoc]
            rfl⟩

/-- The outer loop only appends rows. -/
lemma flatOuter_prefix (t : Tree) (H : Nat → Nat) (maxy : Nat) :
    ∀ (fuel start y : Nat) (rows : List FNode),
      ∃ ext, (flatOuter t H maxy fuel start y rows).1 = rows ++ ext := by
  intro fuel
  induction fuel with
  | zero => intro start y rows; exact ⟨[], by simp [flatOuter]⟩
  | succ fuel ih =>
    intro start y rows
    simp only [flatOuter]
    obtain ⟨ext1, hext1⟩ := flatInner_prefix H maxy
      (queueMeasure ((rows.drop start).map (fun r => fchildren t r))) _ y rows
    cases hres : flatInner H maxy
        (queueMeasure ((rows.drop start).map (fun r => fchildren t r))) y rows
        ((rows.drop start).map (fun r => fchildren t r)) with
    | mk y' rest =>
      obtain ⟨rows', broke⟩ := rest
      rw [hres] at hext1
      simp only at hext1
      cases broke with
      | true => exact ⟨ext1, hext1⟩
      | false =>
        dsimp only
        by_cases hstop : rows.length = rows'.length
        · rw [if_pos hstop]
          exact ⟨ext1, hext1⟩
        · rw [if_neg hstop]
          obtain ⟨ext2, hext2⟩ := ih rows.length y' rows'
          exact ⟨ext1 ++ ext2, by rw [hext2, hext1, List.append_assoc]⟩

/-- Path shape invariant: every row's path starts with 0, and every row other
than the root has a path of length at least two. -/
def pathOk (r0 : FNode) (r : FNode) : Prop :=
  r.path.head? = some 0 ∧ (r = r0 ∨ 2 ≤ r.path.length)

lemma flatInner_pathOk (H : Nat → Nat) (maxy : Nat) (r0 : FNode) :
    ∀ (fuel : Nat) (q : List (List FNode)) (y : Nat) (rows : List FNode),
      (∀ r ∈ rows, pathOk r0 r) →
      (∀ l ∈ q, ∀ c ∈ l, c.path.head? = some 0) →
      ∀ r ∈ (flatInner H maxy fuel y rows q).2.1, pathOk r0 r := by
  intro fuel
  induction fuel with
  | zero => intro q y rows hrows _; exact hrows
  | succ fuel ih =>
    intro q y rows hrows hq
    cases q with
    | nil => exact hrows
    | cons it queue =>
      cases it with
      | nil =>
        simp only [flatInner]
        exact ih queue y rows hrows (fun l hl => hq l (List.mem_cons_of_mem _ hl))
      | cons c cs =>
        simp only [flatInner]
        by_cases hbreak : maxy < y + H c.id
        · rw [if_pos hbreak]
          exact hrows
        · rw [if_neg hbreak]
          have hc0 : c.path.head? = some 0 :=
            hq (c :: cs) (List.mem_cons_self _ _) c (List.mem_cons_self _ _)
          have h1 : (c.path ++ [rows.length]).head? = some 0 := by
            cases hcp : c.path with
            | nil => rw [hcp] at hc0; simp at hc0
            | cons x xs =>
              rw [hcp] at hc0
              simp only [List.head?_cons, Option.some_inj] at hc0
              subst hc0
              simp
          have h2 : 2 ≤ (c.path ++ [rows.length]).length := by
            cases hcp : c.path with
            | nil => rw [hcp] at hc0; simp at hc0
            | cons x xs =>
              simp only [List.length_cons, List.length_append, List.length_nil]
              omega
          have hchild : pathOk r0 { c with path := c.path ++ [rows.length] } :=
            ⟨h1, Or.inr h2⟩
          apply ih (queue ++ [cs]) (y + H c.id)
          · intro r hr
            rcases List.mem_append.mp hr with h | h
            · exact hrows r h
            · simp only [List.mem_cons, List.not_mem_nil, or_false] at h
              subst h
              exact hchild
          · intro l hl x hx
            rcases List.mem_append.mp hl with h | h
            · exact hq l (List.mem_cons_of_mem _ h) x hx
            · simp only [List.mem_cons, List.not_mem_nil, or_false] at h
              exact hq (c :: cs) (List.mem_cons_self _ _) x (List.mem_cons_of_mem c (h ▸ hx))

lemma flatOuter_pathOk (t : Tree) (H : Nat → Nat) (maxy : Nat) (r0 : FNode) :
    ∀ (fuel start y : Nat) (rows : List FNode),
      (∀ r ∈ rows, pathOk r0 r) →
      ∀ r ∈ (flatOuter t H maxy fuel start y rows).1, pathOk r0 r := by
  intro fuel
  induction fuel with
  | zero => intro start y rows hrows; exact hrows
  | succ fuel ih =>
    intro start y rows hrows
    simp only [flatOuter]
    have hq : ∀ l ∈ (rows.drop start).map (fun r => fchildren t r),
        ∀ c ∈ l, c.path.head? = some 0 := by
      intro l hl c hc
      rw [List.mem_map] at hl
      obtain ⟨parent, hparent, hlp⟩ := hl
      subst hlp
      have hpp : parent ∈ rows := List.mem_of_mem_drop hparent
      rw [fchildren_path t parent c hc]
      exact (hrows parent hpp).1
    have hinner := flatInner_pathOk H maxy r0
      (queueMeasure ((rows.drop start).map (fun r => fchildren t r))) _ y rows hrows hq
    cases hres : flatInner H maxy
        (queueMeasure ((rows.drop start).map (fun r => fchildren t r))) y rows
        ((rows.drop start).map (fun r => fchildren t r)) with
    | mk y' rest =>
      obtain ⟨rows', broke⟩ := rest
      rw [hres] at hinner
      simp only at hinner
      cases broke with
      | true => exact hinner
      | false =>
        dsimp only
        by_cases hstop : rows.length = rows'.length
        · rw [if_pos hstop]
          exact hinner
        · rw [if_neg hstop]
          exact ih rows.length y' rows' hinner

/-- Claim C10: whenever flatten returns a non-empty row sequence, its first
row after the path sort is the root FlatNode (path [0], depth 0): every
non-root row's path is a strict extension of its discovery parent's path, so
it starts with 0 and has length at least two, making the root's path [0] the
strict lexicographic minimum. -/
theorem flatten_first_row_is_root (t : Tree) (H : Nat → Nat) (y0 maxy pid id fuel : Nat)
    (hne : (flattree t H y0 maxy pid id fuel).1 ≠ []) :
    (flattree t H y0 maxy pid id fuel).1.head? = some (rootFNode t pid id) := by
  by_cases hroot : maxy < y0 + H id
  · simp [flattree, if_pos hroot] at hne
  · simp only [flattree, if_neg hroot] at hne ⊢
    cases hres : flatOuter t H maxy fuel 0 (y0 + H id) [rootFNode t pid id] with
    | mk rows completed =>
      rw [hres] at hne
      dsimp only at hne ⊢
      obtain ⟨ext, hext⟩ := flatOuter_prefix t H maxy fuel 0 (y0 + H id) [rootFNode t pid id]
      rw [hres] at hext
      dsimp only at hext
      have hmemroot : rootFNode t pid id ∈ rows := by
        rw [hext]
        exact List.mem_append.mpr (Or.inl (List.mem_cons_self _ _))
      have hall : ∀ r ∈ rows, pathOk (rootFNode t pid id) r := by
        have hthis := flatOuter_pathOk t H maxy (rootFNode t pid id) fuel 0 (y0 + H id)
          [rootFNode t pid id] (by
            intro r hr
            simp only [List.mem_cons, List.not_mem_nil, or_false] at hr
            subst hr
            exact ⟨rfl, Or.inl rfl⟩)
        rw [hres] at hthis
        exact hthis
      have hsorted : List.Sorted rowLe (sortByPath rows) :=
        List.sorted_insertionSort rowLe rows
      cases hs : sortByPath rows with
      | nil => exact absurd hs hne
      | cons hd tl =>
        have hhd_mem : hd ∈ rows := by
          have hmem : hd ∈ sortByPath rows := hs ▸ List.mem_cons_self _ _
          rw [sortByPath, List.mem_insertionSort] at hmem
          exact hmem
        have hroot_mem : rootFNode t pid id ∈ hd :: tl := by
          rw [← hs, sortByPath, List.mem_insertionSort]
          exact hmemroot
        have hhd : hd = rootFNode t pid id := by
          rcases List.mem_cons.mp hroot_mem with heq | hin
          · exact heq.symm
          · rw [hs] at hsorted
            have hrel : rowLe hd (rootFNode t pid id) :=
              (List.sorted_cons.mp hsorted).1 _ hin
            have hOk := hall hd hhd_mem
            have hpath : hd.path = [0] := eq_zero_of_pathLe_zero hd.path hOk.1 hrel
            rcases hOk.2 with heq2 | hlen
            · exact heq2
            · rw [hpath] at hlen
              simp at hlen
        simp [List.head?_cons, hhd]

/-- Witness for C10 at a concrete input: the two-child tree under an ample
viewport returns a nonempty row list headed by the root FlatNode. -/
theorem flatten_first_row_is_root_witness :
    (flattree cutTree (fun _ => 1) 0 100 0 0 10).1.head? = some (rootFNode cutTree 0 0) :=
  flatten_first_row_is_root cutTree (fun _ => 1) 0 100 0 0 10 (by decide)

/-! Pre-order correspondence (claim C3), part 1: path prefix and order facts. -/

/-- Boolean test that the first list is an initial segment of the second. -/
def leadsB : List Nat → List Nat → Bool
  | [], _ => true
  | _ :: _, [] => false
  | a :: as, b :: bs => a = b && leadsB as bs

lemma leadsB_iff (q : List Nat) : ∀ p, leadsB q p = true ↔ ∃ r, p = q ++ r := by
  induction q with
  | nil =>
    intro p
    simp [leadsB]
  | cons a as ih =>
    intro p
    cases p with
    | nil =>
      simp only [leadsB]
      constructor
      · intro h; simp at h
      · intro ⟨r, hr⟩; simp at hr
    | cons b bs =>
      simp only [leadsB, Bool.and_eq_true, decide_eq_true_eq]
      constructor
      · intro ⟨hab, hrest⟩
        obtain ⟨r, hr⟩ := (ih bs).mp hrest
        exact ⟨r, by rw [hr, hab.symm]; rfl⟩
      · intro ⟨r, hr⟩
        rw [List.cons_append] at hr
        obtain ⟨hb, hbs⟩ : b = a ∧ bs = as ++ r := by
          constructor <;> injection hr <;> simp_all
        exact ⟨hb.symm, (ih bs).mpr ⟨r, hbs⟩⟩

lemma leadsB_refl (p : List Nat) : leadsB p p = true :=
  (leadsB_iff p p).mpr ⟨[], by simp⟩

lemma leadsB_append (q r : List Nat) : leadsB q (q ++ r) = true :=
  (leadsB_iff q (q ++ r)).mpr ⟨r, rfl⟩

lemma leadsB_level (q p : List Nat) (h : leadsB q p = true)
    (hlen : p.length = q.length + 1) : ∃ k, p = q ++ [k] := by
  obtain ⟨r, hr⟩ := (leadsB_iff q p).mp h
  subst hr
  rw [List.length_append] at hlen
  cases r with
  | nil => simp at hlen
  | cons k rest =>
    cases rest with
    | nil => exact ⟨k, rfl⟩
    | cons k2 rest2 => simp at hlen

lemma pathLe_refl (p : List Nat) : pathLe p p = true := by
  induction p with
  | nil => rfl
  | cons a as ih => simp [pathLe, ih]

lemma pathLe_of_leadsB (q p : List Nat) (h : leadsB q p = true) : pathLe q p = true := by
  obtain ⟨r, hr⟩ := (leadsB_iff q p).mp h
  subst hr
  clear h
  induction q with
  | nil => rfl
  | cons a as ih => simp [pathLe, Nat.lt_irrefl, ih]

lemma pathLe_antisymm : ∀ (p q : List Nat), pathLe p q = true → pathLe q p = true → p = q := by
  intro p
  induction p with
  | nil =>
    intro q hpq hqp
    cases q with
    | nil => rfl
    | cons b bs => simp [pathLe] at hqp
  | cons a as ih =>
    intro q hpq hqp
    cases q with
    | nil => simp [pathLe] at hpq
    | cons b bs =>
      simp only [pathLe] at hpq hqp
      by_cases hab : a < b
      · simp [Nat.not_lt_of_lt hab, hab] at hqp
      · by_cases hba : b < a
        · simp [hab, hba] at hpq
        · have hae : a = b := by omega
          subst hae
          simp only [Nat.lt_irrefl, if_neg] at hpq hqp
          rw [ih bs hpq hqp]

lemma pathLe_between (q : List Nat) : ∀ (a b c : List Nat),
    leadsB q a = true → leadsB q c = true → pathLe a b = true → pathLe b c = true →
    leadsB q b = true := by
  induction q with
  | nil => intro a b c _ _ _ _; rfl
  | cons x xs ih =>
    intro a b c hqa hqc hab hbc
    cases a with
    | nil => simp [leadsB] at hqa
    | cons a0 as =>
      cases c with
      | nil => simp [leadsB] at hqc
      | cons c0 cs =>
        simp only [leadsB, Bool.and_eq_true, decide_eq_true_eq] at hqa hqc
        obtain ⟨hxa, hqa'⟩ := hqa
        obtain ⟨hxc, hqc'⟩ := hqc
        subst hxa
        subst hxc
        cases b with
        | nil => simp [pathLe] at hab
        | cons b0 bs =>
          simp only [pathLe] at hab hbc
          have hb0 : b0 = x := by
            by_cases h1 : x < b0
            · simp [h1, Nat.lt_asymm h1] at hbc
            · by_cases h2 : b0 < x
              · simp [h1, h2] at hab
              · omega
          subst hb0
          simp only [Nat.lt_irrefl, if_neg] at hab hbc
          simp only [leadsB, Bool.and_eq_true, decide_eq_true_eq]
          exact ⟨trivial, ih as bs cs hqa' hqc' hab hbc⟩

lemma pathLe_append_right (q : List Nat) (i j : Nat) (h : i ≤ j) :
    pathLe (q ++ [i]) (q ++ [j]) = true := by
  induction q with
  | nil =>
    simp only [List.nil_append, pathLe]
    by_cases hij : i < j
    · simp [hij]
    · have : i = j := by omega
      subst this
      simp [Nat.lt_irrefl, pathLe]
  | cons a as ih =>
    simp [pathLe, Nat.lt_irrefl, ih]

/-- Two sorted row lists that are permutations of each other and have
duplicate-free paths coincide (stable-sort output uniqueness). -/
lemma sorted_perm_nodup_eq : ∀ (l1 l2 : List FNode), l1.Perm l2 →
    List.Sorted rowLe l1 → List.Sorted rowLe l2 →
    (l1.map (fun r => r.path)).Nodup → l1 = l2 := by
  intro l1
  induction l1 with
  | nil =>
    intro l2 hperm _ _ _
    exact List.Perm.nil_eq hperm
  | cons a t1 ih =>
    intro l2 hperm hs1 hs2 hnd
    cases l2 with
    | nil =>
      have hnil := hperm.eq_nil
      simp at hnil
    | cons b t2 =>
      have hab : a = b := by
        by_contra hne
        have hbmem : b ∈ a :: t1 := hperm.mem_iff.mpr (List.mem_cons_self _ _)
        have hamem : a ∈ b :: t2 := hperm.mem_iff.mp (List.mem_cons_self _ _)
        have hb1 : b ∈ t1 := by
          rcases List.mem_cons.mp hbmem with h | h
          · exact absurd h.symm hne
          · exact h
        have ha2 : a ∈ t2 := by
          rcases List.mem_cons.mp hamem with h | h
          · exact absurd h hne
          · exact h
        have h1 : rowLe a b := (List.sorted_cons.mp hs1).1 b hb1
        have h2 : rowLe b a := (List.sorted_cons.mp hs2).1 a ha2
        have hpe : a.path = b.path := pathLe_antisymm _ _ h1 h2
        simp only [List.map_cons, List.nodup_cons] at hnd
        exact hnd.1 (hpe ▸ List.mem_map.mpr ⟨b, hb1, rfl⟩)
      subst hab
      have hperm' : t1.Perm t2 := hperm.cons_inv
      simp only [List.map_cons, List.nodup_cons] at hnd
      rw [ih t2 hperm' hs1.of_cons hs2.of_cons hnd.2]

/-! Pre-order correspondence, part 2: subtree decomposition of a sorted row
list. -/

/-- Boolean child test: the row sits exactly one level below path q and
extends it. -/
def childPredB (q : List Nat) (r : FNode) : Bool :=
  r.path.length = q.length + 1 && leadsB q r.path

/-- The ids of the rows of L that are children of path q, in list order. -/
def kidsIn (L : List FNode) (q : List Nat) : List Nat :=
  (L.filter (childPredB q)).map (fun r => r.id)

/-- Conditions making L the list of strict descendants of a node with path
q0: sorted by path, duplicate-free paths, every path strictly extends q0,
every row's parent path is q0 or present in L, and every row's children in L
are exactly its links entry. -/
def descOK (links : Nat → List Nat) (q0 : List Nat) (L : List FNode) : Prop :=
  List.Sorted rowLe L ∧
  (L.map (fun r => r.path)).Nodup ∧
  (∀ r ∈ L, leadsB q0 r.path = true ∧ q0.length < r.path.length) ∧
  (∀ r ∈ L, r.path.dropLast = q0 ∨ ∃ r' ∈ L, r'.path = r.path.dropLast) ∧
  (∀ r ∈ L, kidsIn L r.path = links r.id)

lemma leadsB_trans (a b c : List Nat) (h1 : leadsB a b = true) (h2 : leadsB b c = true) :
    leadsB a c = true := by
  obtain ⟨r1, hr1⟩ := (leadsB_iff a b).mp h1
  obtain ⟨r2, hr2⟩ := (leadsB_iff b c).mp h2
  exact (leadsB_iff a c).mpr ⟨r1 ++ r2, by rw [hr2, hr1, List.append_assoc]⟩

lemma leadsB_length_le (q p : List Nat) (h : leadsB q p = true) : q.length ≤ p.length := by
  obtain ⟨r, hr⟩ := (leadsB_iff q p).mp h
  subst hr
  simp

lemma eq_of_leadsB_length (q p : List Nat) (h : leadsB q p = true)
    (hlen : p.length ≤ q.length) : p = q := by
  obtain ⟨r, hr⟩ := (leadsB_iff q p).mp h
  subst hr
  rw [List.length_append] at hlen
  have : r = [] := by
    cases r with
    | nil => rfl
    | cons x xs => simp at hlen
  rw [this, List.append_nil]

lemma leadsB_of_append_le (q p s : List Nat) (h : leadsB q (p ++ s) = true)
    (hlen : q.length ≤ p.length) : leadsB q p = true := by
  induction q generalizing p with
  | nil => rfl
  | cons a as ih =>
    cases p with
    | nil => simp at hlen
    | cons b bs =>
      simp only [List.cons_append, leadsB, Bool.and_eq_true, decide_eq_true_eq] at h ⊢
      exact ⟨h.1, ih bs h.2 (by simpa using hlen)⟩

lemma leadsB_dropLast (p : List Nat) (hne : p ≠ []) : leadsB p.dropLast p = true := by
  have h := leadsB_append p.dropLast [p.getLast hne]
  rwa [List.dropLast_append_getLast hne] at h

lemma dropWhile_head_false (p : FNode → Bool) (l : List FNode) (x : FNode) (xs : List FNode)
    (h : l.dropWhile p = x :: xs) : p x = false := by
  induction l with
  | nil => simp at h
  | cons a as ih =>
    rw [List.dropWhile_cons] at h
    by_cases hp : p a
    · rw [if_pos (by simp [hp])] at h
      exact ih h
    · rw [if_neg (by simp [hp])] at h
      obtain rfl : a = x := by injection h
      simpa using hp

/-- In a sorted duplicate-free list, an element below every other element is
the head. -/
lemma head_of_min (L : List FNode) (m : FNode) (hs : List.Sorted rowLe L)
    (hnd : (L.map (fun r => r.path)).Nodup) (hm : m ∈ L)
    (hmin : ∀ r ∈ L, pathLe m.path r.path = true) : ∃ tl, L = m :: tl := by
  cases L with
  | nil => simp at hm
  | cons h t =>
    rcases List.mem_cons.mp hm with heq | hin
    · exact ⟨t, by rw [heq]⟩
    · have h1 : rowLe h m := (List.sorted_cons.mp hs).1 m hin
      have h2 : pathLe m.path h.path = true := hmin h (List.mem_cons_self _ _)
      have hpe : h.path = m.path := pathLe_antisymm _ _ h1 h2
      simp only [List.map_cons, List.nodup_cons] at hnd
      exact absurd (hpe.symm ▸ List.mem_map.mpr ⟨m, hin, rfl⟩) hnd.1

/-- Walking up parent links from any descendant reaches a row exactly one
level below q0. -/
lemma descend_to_level (links : Nat → List Nat) (q0 : List Nat) (L : List FNode)
    (hdesc : descOK links q0 L) :
    ∀ (n : Nat) (r : FNode), r ∈ L → r.path.length ≤ n →
      ∃ r' ∈ L, r'.path.length = q0.length + 1 ∧ leadsB r'.path r.path = true := by
  obtain ⟨hs, hnd, hext, hclose, hkids⟩ := hdesc
  intro n
  induction n with
  | zero =>
    intro r hr hlen
    have := (hext r hr).2
    omega
  | succ n ih =>
    intro r hr hlen
    have hlt := (hext r hr).2
    by_cases hlev : r.path.length = q0.length + 1
    · exact ⟨r, hr, hlev, leadsB_refl _⟩
    · have hne : r.path ≠ [] := by
        intro hnil
        rw [hnil] at hlt
        simp at hlt
      have hdrop : r.path.dropLast.length = r.path.length - 1 := by
        simp [List.length_dropLast]
      rcases hclose r hr with hq0 | ⟨r', hr', hr'p⟩
      · rw [hq0] at hdrop
        omega
      · have hlen' : r'.path.length ≤ n := by
          rw [hr'p, hdrop]
          omega
        obtain ⟨r'', hr'', hlev'', hlead''⟩ := ih r' hr' hlen'
        refine ⟨r'', hr'', hlev'', ?_⟩
        apply leadsB_trans _ _ _ hlead''
        rw [hr'p]
        exact leadsB_dropLast _ hne

lemma kidsIn_cons_append (f1 : FNode) (B A : List FNode) (q : List Nat)
    (hf1 : childPredB q f1 = false)
    (hA : ∀ r ∈ A, childPredB q r = false) :
    kidsIn (f1 :: (B ++ A)) q = kidsIn B q := by
  have hAnil : A.filter (childPredB q) = [] :=
    List.filter_eq_nil_iff.mpr (fun r hr => by simp [hA r hr])
  simp [kidsIn, List.filter_cons, List.filter_append, hf1, hAnil]

lemma kidsIn_cons_append_right (f1 : FNode) (B A : List FNode) (q : List Nat)
    (hf1 : childPredB q f1 = false)
    (hB : ∀ r ∈ B, childPredB q r = false) :
    kidsIn (f1 :: (B ++ A)) q = kidsIn A q := by
  have hBnil : B.filter (childPredB q) = [] :=
    List.filter_eq_nil_iff.mpr (fun r hr => by simp [hB r hr])
  simp [kidsIn, List.filter_cons, List.filter_append, hf1, hBnil]

/-- Core decomposition lemma: a sorted duplicate-free list of strict
descendants of a node, closed under parents and with children agreeing with
the links map, splits into the concatenation of the pre-order listings of
the node's children. -/
lemma preord_of_descOK (links : Nat → List Nat) :
    ∀ (n : Nat) (L : List FNode) (q0 : List Nat) (cs : List Nat),
      L.length ≤ n → descOK links q0 L → kidsIn L q0 = cs →
      ∃ segs, L.map (fun r => r.id) = segs.flatten ∧
        List.Forall₂ (PreOrd links) cs segs := by
  intro n
  induction n with
  | zero =>
    intro L q0 cs hlen hdesc hcs
    have hLnil : L = [] := List.length_eq_zero.mp (Nat.le_zero.mp hlen)
    subst hLnil
    rw [← hcs]
    exact ⟨[], by simp, List.Forall₂.nil⟩
  | succ n ih =>
    intro L q0 cs hlen hdesc hcs
    obtain ⟨hs, hnd, hext, hclose, hkids⟩ := hdesc
    cases hF : L.filter (childPredB q0) with
    | nil =>
      have hLnil : L = [] := by
        by_contra hne
        obtain ⟨r, hr⟩ := List.exists_mem_of_ne_nil L hne
        obtain ⟨r', hr', hlev, _⟩ := descend_to_level links q0 L
          ⟨hs, hnd, hext, hclose, hkids⟩ r.path.length r hr le_rfl
        have hpred : childPredB q0 r' = true := by
          simp [childPredB, hlev, (hext r' hr').1]
        have hmemF : r' ∈ L.filter (childPredB q0) := List.mem_filter.mpr ⟨hr', hpred⟩
        rw [hF] at hmemF
        simp at hmemF
      have hcs' : cs = [] := by
        rw [← hcs]
        simp [kidsIn, hF]
      subst hcs'
      exact ⟨[], by simp [hLnil], List.Forall₂.nil⟩
    | cons f1 F' =>
      have hf1filter : f1 ∈ L.filter (childPredB q0) := by
        rw [hF]
        exact List.mem_cons_self _ _
      obtain ⟨hf1mem, hf1pred⟩ := List.mem_filter.mp hf1filter
      have hf1len : f1.path.length = q0.length + 1 := by
        simp only [childPredB, Bool.and_eq_true, decide_eq_true_eq] at hf1pred
        exact hf1pred.1
      have hf1lead : leadsB q0 f1.path = true := by
        simp only [childPredB, Bool.and_eq_true, decide_eq_true_eq] at hf1pred
        exact hf1pred.2
      have hFs : List.Sorted rowLe (L.filter (childPredB q0)) :=
        List.Pairwise.sublist (List.filter_sublist _) hs
      have hmin : ∀ r ∈ L, pathLe f1.path r.path = true := by
        intro r hr
        obtain ⟨r', hr', hlev, hlead⟩ := descend_to_level links q0 L
          ⟨hs, hnd, hext, hclose, hkids⟩ r.path.length r hr le_rfl
        have hr'F : r' ∈ L.filter (childPredB q0) := List.mem_filter.mpr
          ⟨hr', by simp [childPredB, hlev, (hext r' hr').1]⟩
        rw [hF] at hr'F
        have h1 : pathLe f1.path r'.path = true := by
          rcases List.mem_cons.mp hr'F with heq | hin
          · rw [heq]
            exact pathLe_refl _
          · rw [hF] at hFs
            exact (List.sorted_cons.mp hFs).1 r' hin
        exact pathLe_trans _ _ _ h1 (pathLe_of_leadsB _ _ hlead)
      obtain ⟨Ltl, hLtl⟩ := head_of_min L f1 hs hnd hf1mem hmin
      obtain ⟨B, A, hBdef, hAdef⟩ :
          ∃ B A, B = Ltl.takeWhile (fun r => leadsB f1.path r.path) ∧
            A = Ltl.dropWhile (fun r => leadsB f1.path r.path) := ⟨_, _, rfl, rfl⟩
      have hBA : B ++ A = Ltl := by
        rw [hBdef, hAdef]
        exact List.takeWhile_append_dropWhile _ _
      have hLform : L = f1 :: (B ++ A) := by
        rw [hBA]
        exact hLtl
      have hsub_tl : Ltl.Sublist L := by
        rw [hLtl]
        exact List.sublist_cons_self _ _
      have hBsub : B.Sublist L := by
        rw [hBdef]
        exact (List.takeWhile_sublist _).trans hsub_tl
      have hAsub : A.Sublist L := by
        rw [hAdef]
        exact (List.dropWhile_sublist _).trans hsub_tl
      have hBmem : ∀ r ∈ B, leadsB f1.path r.path = true := by
        rw [hBdef]
        exact fun r hr => List.mem_takeWhile_imp (p := fun (x : FNode) => leadsB f1.path x.path) hr
      have hAmem : ∀ r ∈ A, ¬ leadsB f1.path r.path = true := by
        intro r hr hcontra
        cases hAform : A with
        | nil =>
          rw [hAform] at hr
          simp at hr
        | cons w A2 =>
          have hw : leadsB f1.path w.path = false :=
            dropWhile_head_false _ _ _ _ (by rw [← hAdef]; exact hAform)
          rw [hAform] at hr
          rcases List.mem_cons.mp hr with heq | hin
          · rw [heq] at hcontra
            rw [hcontra] at hw
            simp at hw
          · have hAs0 : List.Sorted rowLe A := List.Pairwise.sublist hAsub hs
            rw [hAform] at hAs0
            have hwr : rowLe w r := (List.sorted_cons.mp hAs0).1 r hin
            have hwL : w ∈ L := hAsub.subset (by rw [hAform]; exact List.mem_cons_self _ _)
            have hfw : pathLe f1.path w.path = true := hmin w hwL
            have hgood : leadsB f1.path w.path = true :=
              pathLe_between f1.path f1.path w.path r.path (leadsB_refl _) hcontra hfw hwr
            rw [hgood] at hw
            simp at hw
      have hnodup_tail : ∀ r ∈ Ltl, r.path ≠ f1.path := by
        intro r hr hcontra
        have hnd' := hLtl ▸ hnd
        simp only [List.map_cons, List.nodup_cons] at hnd'
        exact hnd'.1 (hcontra ▸ List.mem_map.mpr ⟨r, hr, rfl⟩)
      have hBstrict : ∀ r ∈ B,
          leadsB f1.path r.path = true ∧ f1.path.length < r.path.length := by
        intro r hr
        refine ⟨hBmem r hr, ?_⟩
        have hneq : r.path ≠ f1.path := hnodup_tail r (hBA ▸ List.mem_append.mpr (Or.inl hr))
        rcases Nat.lt_or_ge f1.path.length r.path.length with h | h
        · exact h
        · exact absurd (eq_of_leadsB_length _ _ (hBmem r hr) h) hneq
      have hlenL : L.length = B.length + A.length + 1 := by
        rw [hLform]
        simp
      have hBlen : B.length ≤ n := by omega
      have hAlen : A.length ≤ n := by omega
      have hBs : List.Sorted rowLe B := List.Pairwise.sublist hBsub hs
      have hAs : List.Sorted rowLe A := List.Pairwise.sublist hAsub hs
      have hBnd : (B.map (fun r => r.path)).Nodup :=
        List.Nodup.sublist (List.Sublist.map _ hBsub) hnd
      have hAnd : (A.map (fun r => r.path)).Nodup :=
        List.Nodup.sublist (List.Sublist.map _ hAsub) hnd
      have hBdesc : descOK links f1.path B := by
        refine ⟨hBs, hBnd, hBstrict, ?_, ?_⟩
        · intro r hr
          have hrL : r ∈ L := hBsub.subset hr
          have hrlen : f1.path.length < r.path.length := (hBstrict r hr).2
          have hrne : r.path ≠ [] := by
            intro hh
            rw [hh] at hrlen
            simp at hrlen
          rcases hclose r hrL with hq0 | ⟨r', hr'L, hr'p⟩
          · exfalso
            have hdl : r.path.dropLast.length = r.path.length - 1 := List.length_dropLast _
            rw [hq0] at hdl
            omega
          · by_cases hr'f1 : r'.path = f1.path
            · exact Or.inl (hr'p.symm.trans hr'f1)
            · right
              have hlead' : leadsB f1.path r'.path = true := by
                rw [hr'p]
                apply leadsB_of_append_le f1.path r.path.dropLast [r.path.getLast hrne]
                · rw [List.dropLast_append_getLast hrne]
                  exact hBmem r hr
                · rw [List.length_dropLast]
                  omega
              have hr'tl : r' ∈ Ltl := by
                rw [hLtl] at hr'L
                rcases List.mem_cons.mp hr'L with heq | hh
                · exact absurd (by rw [heq]) hr'f1
                · exact hh
              rw [← hBA] at hr'tl
              rcases List.mem_append.mp hr'tl with hh | hh
              · exact ⟨r', hh, hr'p⟩
              · exact absurd hlead' (hAmem r' hh)
        · intro r hr
          have hrL : r ∈ L := hBsub.subset hr
          have hrlen : f1.path.length < r.path.length := (hBstrict r hr).2
          have hkr := hkids r hrL
          rw [← hkr, hLform]
          rw [kidsIn_cons_append]
          · have hlf1 : ¬ (f1.path.length = r.path.length + 1) := by omega
            simp [childPredB, hlf1]
          · intro c hc
            by_cases hcp : childPredB r.path c = true
            · exfalso
              simp only [childPredB, Bool.and_eq_true, decide_eq_true_eq] at hcp
              exact hAmem c hc (leadsB_trans _ _ _ (hBmem r hr) hcp.2)
            · simpa using hcp
      have hBtop : kidsIn B f1.path = links f1.id := by
        have hk := hkids f1 hf1mem
        rw [hLform] at hk
        rw [kidsIn_cons_append] at hk
        · exact hk
        · simp [childPredB]
        · intro c hc
          by_cases hcp : childPredB f1.path c = true
          · exfalso
            simp only [childPredB, Bool.and_eq_true, decide_eq_true_eq] at hcp
            exact hAmem c hc hcp.2
          · simpa using hcp
      obtain ⟨segs1, hsegs1, hforall1⟩ := ih B f1.path (links f1.id) hBlen hBdesc hBtop
      have hAdesc : descOK links q0 A := by
        refine ⟨hAs, hAnd, fun r hr => hext r (hAsub.subset hr), ?_, ?_⟩
        · intro r hr
          have hrL : r ∈ L := hAsub.subset hr
          rcases hclose r hrL with hh | ⟨r', hr'L, hr'p⟩
          · exact Or.inl hh
          · right
            have hrlen := (hext r hrL).2
            have hrne : r.path ≠ [] := by
              intro hh
              rw [hh] at hrlen
              simp at hrlen
            have hr'nf1 : ¬ leadsB f1.path r'.path = true := by
              intro hcontra
              apply hAmem r hr
              have h2 : leadsB r'.path r.path = true := by
                rw [hr'p]
                exact leadsB_dropLast _ hrne
              exact leadsB_trans _ _ _ hcontra h2
            have hr'tl : r' ∈ Ltl := by
              rw [hLtl] at hr'L
              rcases List.mem_cons.mp hr'L with heq | hh
              · exact absurd (by rw [heq]; exact leadsB_refl _) hr'nf1
              · exact hh
            rw [← hBA] at hr'tl
            rcases List.mem_append.mp hr'tl with hh | hh
            · exact absurd (hBmem r' hh) hr'nf1
            · exact ⟨r', hh, hr'p⟩
        · intro r hr
          have hrL : r ∈ L := hAsub.subset hr
          have hrlen := (hext r hrL).2
          have hkr := hkids r hrL
          rw [← hkr, hLform]
          rw [kidsIn_cons_append_right]
          · have hlf1 : ¬ (f1.path.length = r.path.length + 1) := by
              rw [hf1len]
              omega
            simp [childPredB, hlf1]
          · intro c hc
            by_cases hcp : childPredB r.path c = true
            · exfalso
              simp only [childPredB, Bool.and_eq_true, decide_eq_true_eq] at hcp
              obtain ⟨k, hk⟩ := leadsB_level r.path c.path hcp.2 hcp.1
              apply hAmem r hr
              have hlen2 : f1.path.length ≤ r.path.length := by
                rw [hf1len]
                omega
              apply leadsB_of_append_le f1.path r.path [k]
              · rw [← hk]
                exact (hBmem c hc)
              · exact hlen2
            · simpa using hcp
      have hcs_decomp : cs = f1.id :: kidsIn A q0 := by
        rw [← hcs, hLform]
        have hBnil : B.filter (childPredB q0) = [] := by
          apply List.filter_eq_nil_iff.mpr
          intro c hc
          have hclen : f1.path.length < c.path.length := (hBstrict c hc).2
          rw [hf1len] at hclen
          simp [childPredB]
          omega
        simp [kidsIn, List.filter_cons, List.filter_append, hf1pred, hBnil]
      obtain ⟨segs2, hsegs2, hforall2⟩ := ih A q0 (kidsIn A q0) hAlen hAdesc rfl
      refine ⟨(f1.id :: B.map (fun r => r.id)) :: segs2, ?_, ?_⟩
      · rw [hLform]
        simp only [List.map_cons, List.map_append, List.flatten_cons, ← hsegs2]
        simp
      · rw [hcs_decomp]
        refine List.Forall₂.cons ?_ hforall2
        have hnode := PreOrd.node f1.id segs1 hforall1
        rw [← hsegs1] at hnode
        exact hnode

/-- Wrapper: a sorted duplicate-free row list headed by the root, whose tail
consists of strict descendants closed under parents, with children agreeing
with links everywhere, is a pre-order listing. -/
lemma preord_root (links : Nat → List Nat) (r0 : FNode) (D : List FNode)
    (hs : List.Sorted rowLe (r0 :: D))
    (hnd : ((r0 :: D).map (fun r => r.path)).Nodup)
    (hext : ∀ r ∈ D, leadsB r0.path r.path = true ∧ r0.path.length < r.path.length)
    (hclose : ∀ r ∈ D, r.path.dropLast = r0.path ∨ ∃ r' ∈ D, r'.path = r.path.dropLast)
    (hkids : ∀ r ∈ r0 :: D, kidsIn (r0 :: D) r.path = links r.id) :
    PreOrd links r0.id ((r0 :: D).map (fun r => r.id)) := by
  have hkid_eq : ∀ q : List Nat, r0.path.length ≤ q.length →
      kidsIn (r0 :: D) q = kidsIn D q := by
    intro q hq
    have hnc : ¬ (r0.path.length = q.length + 1) := by omega
    simp [kidsIn, List.filter_cons, childPredB, hnc]
  simp only [List.map_cons, List.nodup_cons] at hnd
  have hDdesc : descOK links r0.path D := by
    refine ⟨hs.of_cons, hnd.2, hext, hclose, ?_⟩
    intro r hr
    rw [← hkid_eq r.path (Nat.le_of_lt (hext r hr).2)]
    exact hkids r (List.mem_cons_of_mem _ hr)
  have htop : kidsIn D r0.path = links r0.id := by
    rw [← hkid_eq r0.path le_rfl]
    exact hkids r0 (List.mem_cons_self _ _)
  obtain ⟨segs, hsegs, hforall⟩ :=
    preord_of_descOK links D.length D r0.path (links r0.id) le_rfl hDdesc htop
  have hnode := PreOrd.node r0.id segs hforall
  rw [← hsegs] at hnode
  simpa using hnode

/-! Pre-order correspondence, part 3: invariants of a completed flatten run. -/

/-- Every row's path ends with the row's own position. -/
def idxPaths (R : List FNode) : Prop :=
  ∀ j (h : j < R.length), ∃ p, (R.get ⟨j, h⟩).path = p ++ [j]

/-- Every non-initial row's path extends the path of an earlier row (its
discovery parent) by the row's own position. -/
def parentsOK (R : List FNode) : Prop :=
  ∀ j (h : j < R.length), 1 ≤ j → ∃ i, ∃ (hi : i < R.length), i < j ∧
    (R.get ⟨j, h⟩).path = (R.get ⟨i, hi⟩).path ++ [j]

/-- The first row (when present) carries the root path. -/
def rootAt (R : List FNode) : Prop :=
  ∀ (h : 0 < R.length), (R.get ⟨0, h⟩).path = [0]

lemma concat_inj_right (l1 l2 : List Nat) (a b : Nat) (h : l1 ++ [a] = l2 ++ [b]) :
    a = b := by
  have hg := congrArg List.getLast? h
  simpa [List.getLast?_append] using hg

lemma kidsIn_append_single (R : List FNode) (r : FNode) (q : List Nat) :
    kidsIn (R ++ [r]) q
      = kidsIn R q ++ (if childPredB q r then [r.id] else []) := by
  by_cases h : childPredB q r
  · simp [kidsIn, List.filter_append, h]
  · simp [kidsIn, List.filter_append, h]

/-- Distinct rows of an index-labelled list have distinct paths. -/
lemma paths_inj_of_idxPaths (R : List FNode) (hidx : idxPaths R)
    {i j : Nat} (hi : i < R.length) (hj : j < R.length)
    (hpath : (R.get ⟨i, hi⟩).path = (R.get ⟨j, hj⟩).path) : i = j := by
  obtain ⟨p, hp⟩ := hidx i hi
  obtain ⟨q, hq⟩ := hidx j hj
  exact concat_inj_right p q i j (by rw [← hp, ← hq, hpath])

lemma drop_parts (l : List FNode) (k : Nat) (c : FNode) (cs : List FNode)
    (h : l.drop k = c :: cs) : l[k]? = some c ∧ l.drop (k + 1) = cs := by
  constructor
  · have h0 : (l.drop k)[0]? = some c := by rw [h]; simp
    rw [List.getElem?_drop] at h0
    simpa using h0
  · have hd : (l.drop k).drop 1 = cs := by rw [h]; rfl
    rw [List.drop_drop] at hd
    exact hd

lemma queueMeasure_cons_nil (q : List (List FNode)) :
    queueMeasure ([] :: q) = queueMeasure q + 1 := by
  simp [queueMeasure]
  omega

lemma queueMeasure_cons_cons (c : FNode) (cs : List FNode) (q : List (List FNode)) :
    queueMeasure ((c :: cs) :: q) = queueMeasure (q ++ [cs]) + 1 := by
  simp [queueMeasure]
  omega

/-- Membership and per-owner bookkeeping of the iterator queue during a
wave: each queued iterator is the not-yet-consumed suffix of the child list
of a distinct owner row placed before the wave began, the owner's placed
children are exactly the consumed ones, rows without a live iterator are
complete (placed before this wave) or childless so far (placed during it). -/
def waveInv (t : Tree) (R : List FNode) (q : List (List FNode)) (pend : List Nat) (fresh : Nat) : Prop :=
  q.length = pend.length ∧
  pend.Nodup ∧
  fresh ≤ R.length ∧
  (∀ n (hq : n < q.length) (hp : n < pend.length),
    ∃ (ho : pend.get ⟨n, hp⟩ < R.length) (k : Nat),
      pend.get ⟨n, hp⟩ < fresh ∧
      q.get ⟨n, hq⟩ = (fchildren t (R.get ⟨pend.get ⟨n, hp⟩, ho⟩)).drop k ∧
      kidsIn R ((R.get ⟨pend.get ⟨n, hp⟩, ho⟩).path)
        = (t.childIds ((R.get ⟨pend.get ⟨n, hp⟩, ho⟩).id)).take k) ∧
  (∀ i (hi : i < R.length), i ∉ pend →
    (i < fresh → kidsIn R ((R.get ⟨i, hi⟩).path) = t.childIds ((R.get ⟨i, hi⟩).id)) ∧
    (fresh ≤ i → kidsIn R ((R.get ⟨i, hi⟩).path) = []))

lemma fchildren_length (t : Tree) (fn : FNode) :
    (fchildren t fn).length = (t.childIds fn.id).length := by
  rw [fchildren_eq]
  simp

/-- The k-th built child iterator element carries the k-th structural child id. -/
lemma fchildren_get_id (t : Tree) (fn : FNode) (k : Nat) (c : FNode)
    (h : (fchildren t fn)[k]? = some c) :
    (t.childIds fn.id)[k]? = some c.id := by
  rw [fchildren_eq, List.getElem?_map, List.getElem?_enum] at h
  cases hx : (t.childIds fn.id)[k]? with
  | none => rw [hx] at h; simp at h
  | some a =>
    rw [hx] at h
    simp only [Option.map_map, Option.map_some', Option.some_inj] at h
    subst h
    rfl

lemma get_append_one {α : Type} (R : List α) (r : α) (i : Nat) (hi : i < R.length)
    (hi' : i < (R ++ [r]).length) : (R ++ [r]).get ⟨i, hi'⟩ = R.get ⟨i, hi⟩ := by
  simp [List.get_eq_getElem, List.getElem_append_left hi]

lemma get_append_last {α : Type} (R : List α) (r : α)
    (h : R.length < (R ++ [r]).length) : (R ++ [r]).get ⟨R.length, h⟩ = r := by
  rw [List.get_eq_getElem]
  exact List.getElem_concat_length R r R.length rfl h

/-- A freshly appended row is a child of no path other than its discovery
parent's. -/
lemma childPredB_new_false (R : List FNode) (o : Nat) (ho : o < R.length)
    (q : List Nat) (child : FNode)
    (hcp : child.path = (R.get ⟨o, ho⟩).path ++ [R.length])
    (hq : q ≠ (R.get ⟨o, ho⟩).path) : childPredB q child = false := by
  by_contra hb
  rw [Bool.not_eq_false, childPredB, Bool.and_eq_true] at hb
  obtain ⟨hlen, hlead⟩ := hb
  rw [hcp] at hlen hlead
  simp only [List.length_append, List.length_cons, List.length_nil,
    decide_eq_true_eq] at hlen
  have hle : q.length ≤ ((R.get ⟨o, ho⟩).path).length := by omega
  have hqb : leadsB q ((R.get ⟨o, ho⟩).path) = true :=
    leadsB_of_append_le q _ [R.length] hlead hle
  exact hq (eq_of_leadsB_length q _ hqb (by omega)).symm

lemma kidsIn_append_untouched (R : List FNode) (child : FNode) (q : List Nat)
    (h : childPredB q child = false) :
    kidsIn (R ++ [child]) q = kidsIn R q := by
  rw [kidsIn_append_single, h]
  simp

/-- The freshly appended row has no children among the rows so far. -/
lemma kidsIn_new_self (R : List FNode) (child : FNode) (o : Nat) (ho : o < R.length)
    (hidx : idxPaths R) (hpar : parentsOK R) (hroot : rootAt R)
    (hcp : child.path = (R.get ⟨o, ho⟩).path ++ [R.length]) :
    kidsIn (R ++ [child]) child.path = [] := by
  have hself : childPredB child.path child = false := by
    have hno : ¬ (child.path.length = child.path.length + 1) := by omega
    simp [childPredB, hno]
  rw [kidsIn_append_single, hself]
  simp only [if_neg, Bool.false_eq_true, not_false_eq_true, List.append_nil]
  rw [kidsIn, List.filter_eq_nil_iff.mpr, List.map_nil]
  intro r hr hpred
  obtain ⟨⟨j, hj⟩, hrj⟩ := List.mem_iff_get.mp hr
  rw [childPredB, Bool.and_eq_true, decide_eq_true_eq] at hpred
  obtain ⟨hlen, hlead⟩ := hpred
  obtain ⟨m, hm⟩ := leadsB_level child.path r.path hlead hlen
  obtain ⟨p, hp⟩ := hidx j hj
  rw [hrj] at hp
  have hmj : m = j := concat_inj_right child.path p m j (by rw [← hm, hp])
  rw [hmj] at hm
  by_cases hj0 : 1 ≤ j
  · obtain ⟨i, hi, _, hpath⟩ := hpar j hj hj0
    rw [hrj, hm] at hpath
    have hci : child.path = (R.get ⟨i, hi⟩).path := by
      have := congrArg List.dropLast hpath
      rwa [List.dropLast_concat, List.dropLast_concat] at this
    obtain ⟨p2, hp2⟩ := hidx i hi
    have : R.length = i := concat_inj_right _ p2 R.length i (by rw [← hcp, hci, hp2])
    omega
  · have hj0' : j = 0 := by omega
    subst hj0'
    have h0 := hroot hj
    rw [hrj] at h0
    rw [h0] at hlen
    have : child.path.length = 0 := by simpa using hlen
    rw [List.length_eq_zero.mp this] at hcp
    simp at hcp

/-- Appending a row as a child of its discovery parent extends exactly the
parent's child list. -/
lemma kidsIn_owner_append (R : List FNode) (child : FNode) (o : Nat) (ho : o < R.length)
    (hcp : child.path = (R.get ⟨o, ho⟩).path ++ [R.length]) :
    kidsIn (R ++ [child]) ((R.get ⟨o, ho⟩).path)
      = kidsIn R ((R.get ⟨o, ho⟩).path) ++ [child.id] := by
  rw [kidsIn_append_single]
  have hpred : childPredB ((R.get ⟨o, ho⟩).path) child = true := by
    rw [childPredB, Bool.and_eq_true, decide_eq_true_eq]
    exact ⟨by rw [hcp]; simp, by rw [hcp]; exact leadsB_append _ _⟩
  rw [hpred]
  simp

lemma idxPaths_append (R : List FNode) (child : FNode) (hidx : idxPaths R)
    (hc : ∃ p, child.path = p ++ [R.length]) : idxPaths (R ++ [child]) := by
  intro j hj
  rcases Nat.lt_or_ge j R.length with hlt | hge
  · obtain ⟨p, hp⟩ := hidx j hlt
    exact ⟨p, by rw [get_append_one R child j hlt hj]; exact hp⟩
  · have hj' : j = R.length := by
      simp only [List.length_append, List.length_cons, List.length_nil] at hj
      omega
    subst hj'
    obtain ⟨p, hp⟩ := hc
    exact ⟨p, by rw [get_append_last R child hj]; exact hp⟩

lemma parentsOK_append (R : List FNode) (child : FNode) (o : Nat) (ho : o < R.length)
    (hpar : parentsOK R)
    (hcp : child.path = (R.get ⟨o, ho⟩).path ++ [R.length]) :
    parentsOK (R ++ [child]) := by
  intro j hj hj1
  rcases Nat.lt_or_ge j R.length with hlt | hge
  · obtain ⟨i, hi, hij, hpath⟩ := hpar j hlt hj1
    have hi' : i < (R ++ [child]).length := by simp; omega
    exact ⟨i, hi', hij, by
      rw [get_append_one R child j hlt hj, get_append_one R child i hi hi']
      exact hpath⟩
  · have hj' : j = R.length := by
      simp only [List.length_append, List.length_cons, List.length_nil] at hj
      omega
    subst hj'
    have ho' : o < (R ++ [child]).length := by simp; omega
    exact ⟨o, ho', ho, by
      rw [get_append_last R child hj, get_append_one R child o ho ho']
      exact hcp⟩

lemma rootAt_append (R : List FNode) (child : FNode) (hroot : rootAt R)
    (hne : 0 < R.length) : rootAt (R ++ [child]) := by
  intro h
  rw [get_append_one R child 0 hne h]
  exact hroot hne

lemma get_idx_congr {α : Type} (L : List α) (i j : Nat) (hi : i < L.length) (hij : i = j)
    (hj : j < L.length) : L.get ⟨i, hi⟩ = L.get ⟨j, hj⟩ := by
  subst hij
  rfl

/-- Wave-invariant preservation through the inner loop: the inner loop keeps
the indexing, parent and root invariants of the row list, and a run that does
not hit the viewport break drains the queue, turning every pending owner into
a complete one and every row placed on the way into a childless-so-far one. -/
lemma flatInner_run (t : Tree) (H : Nat → Nat) (maxy : Nat) :
    ∀ (fuel : Nat) (q : List (List FNode)) (pend : List Nat) (y fresh : Nat) (R : List FNode),
      queueMeasure q ≤ fuel →
      idxPaths R → parentsOK R → rootAt R →
      waveInv t R q pend fresh →
      idxPaths (flatInner H maxy fuel y R q).2.1 ∧
      parentsOK (flatInner H maxy fuel y R q).2.1 ∧
      rootAt (flatInner H maxy fuel y R q).2.1 ∧
      ((flatInner H maxy fuel y R q).2.2 = false →
        waveInv t (flatInner H maxy fuel y R q).2.1 [] [] fresh) := by
  intro fuel
  induction fuel with
  | zero =>
    intro q pend y fresh R hfuel hidx hpar hroot hinv
    have hq : q = [] := by
      cases q with
      | nil => rfl
      | cons a as =>
        exfalso
        simp [queueMeasure] at hfuel
    subst hq
    have hpend : pend = [] := List.length_eq_zero.mp (by simpa using hinv.1.symm)
    subst hpend
    refine ⟨hidx, hpar, hroot, fun _ => ?_⟩
    refine ⟨rfl, List.nodup_nil, hinv.2.2.1, ?_, ?_⟩
    · intro n hq hp
      exact absurd hq (by simp)
    · intro i hi _
      exact hinv.2.2.2.2 i hi (by simp)
  | succ fuel ih =>
    intro q pend y fresh R hfuel hidx hpar hroot hinv
    obtain ⟨hlock, hnd, hfr, howners, hfree⟩ := hinv
    cases q with
    | nil =>
      have hpend : pend = [] := List.length_eq_zero.mp (by simpa using hlock.symm)
      subst hpend
      refine ⟨hidx, hpar, hroot, fun _ => ?_⟩
      refine ⟨rfl, List.nodup_nil, hfr, ?_, ?_⟩
      · intro n hq hp
        exact absurd hq (by simp)
      · intro i hi _
        exact hfree i hi (by simp)
    | cons it queue =>
      have hpendne : pend ≠ [] := by
        intro hh
        rw [hh] at hlock
        simp at hlock
      obtain ⟨o, pend', hpend⟩ := List.exists_cons_of_ne_nil hpendne
      subst hpend
      have h0q : 0 < (it :: queue).length := by simp
      have h0p : 0 < (o :: pend').length := by simp
      obtain ⟨ho, k, hofresh, hit, htake⟩ := howners 0 h0q h0p
      have hoo : o < R.length := ho
      have hof : o < fresh := hofresh
      have hit' : it = (fchildren t (R.get ⟨o, hoo⟩)).drop k := hit
      have htake' : kidsIn R ((R.get ⟨o, hoo⟩).path)
          = (t.childIds ((R.get ⟨o, hoo⟩).id)).take k := htake
      have hndc := List.nodup_cons.mp hnd
      cases it with
      | nil =>
        have hchlen : (t.childIds ((R.get ⟨o, hoo⟩).id)).length ≤ k := by
          have hlen := congrArg List.length hit'
          simp only [List.length_nil, List.length_drop] at hlen
          have hfl := fchildren_length t (R.get ⟨o, hoo⟩)
          omega
        have hcomplete : kidsIn R ((R.get ⟨o, hoo⟩).path)
            = t.childIds ((R.get ⟨o, hoo⟩).id) := by
          rw [htake', List.take_of_length_le hchlen]
        have hfuel' : queueMeasure queue ≤ fuel := by
          rw [queueMeasure_cons_nil] at hfuel
          omega
        have hinv' : waveInv t R queue pend' fresh := by
          refine ⟨by simpa using hlock, hndc.2, hfr, ?_, ?_⟩
          · intro n hq hp
            obtain ⟨ho2, k2, hf2, hit2, htake2⟩ :=
              howners (n + 1) (by simpa using hq) (by simpa using hp)
            exact ⟨ho2, k2, hf2, hit2, htake2⟩
          · intro i hi hni
            by_cases hio : i = o
            · subst hio
              refine ⟨fun _ => hcomplete, fun hge => absurd hof (by omega)⟩
            · exact hfree i hi (by simp [hio, hni])
        exact ih queue pend' y fresh R hfuel' hidx hpar hroot hinv'
      | cons c cs =>
        obtain ⟨hck, hcs⟩ := drop_parts _ k c cs hit'.symm
        have hcmem : c ∈ fchildren t (R.get ⟨o, hoo⟩) := by
          obtain ⟨hk, hkeq⟩ := List.getElem?_eq_some_iff.mp hck
          rw [← hkeq]
          exact List.getElem_mem hk
        have hcpath : c.path = (R.get ⟨o, hoo⟩).path := fchildren_path t _ c hcmem
        have hcid : (t.childIds ((R.get ⟨o, hoo⟩).id))[k]? = some c.id :=
          fchildren_get_id t _ k c hck
        simp only [flatInner]
        by_cases hbreak : maxy < y + H c.id
        · rw [if_pos hbreak]
          exact ⟨hidx, hpar, hroot, fun hcon => by simp at hcon⟩
        · rw [if_neg hbreak]
          have hlock2 : queue.length = pend'.length := by simpa using hlock
          have hcp2 : ({ c with path := c.path ++ [R.length] } : FNode).path
              = (R.get ⟨o, hoo⟩).path ++ [R.length] := by
            simp [hcpath]
          have hfuel2 : queueMeasure (queue ++ [cs]) ≤ fuel := by
            rw [queueMeasure_cons_cons] at hfuel
            omega
          have hidx2 : idxPaths (R ++ [{ c with path := c.path ++ [R.length] }]) :=
            idxPaths_append R _ hidx ⟨(R.get ⟨o, hoo⟩).path, hcp2⟩
          have hpar2 : parentsOK (R ++ [{ c with path := c.path ++ [R.length] }]) :=
            parentsOK_append R _ o hoo hpar hcp2
          have hroot2 : rootAt (R ++ [{ c with path := c.path ++ [R.length] }]) :=
            rootAt_append R _ hroot (by omega)
          have hinv2 : waveInv t (R ++ [{ c with path := c.path ++ [R.length] }])
              (queue ++ [cs]) (pend' ++ [o]) fresh := by
            refine ⟨by simp [hlock2], ?_, by simp; omega, ?_, ?_⟩
            · exact (List.perm_append_singleton o pend').nodup_iff.mpr hnd
            · intro n hq hp
              rcases Nat.lt_or_ge n queue.length with hlt | hge
              · have hnp : n < pend'.length := by omega
                have hgi : (pend' ++ [o]).get ⟨n, hp⟩ = pend'.get ⟨n, hnp⟩ :=
                  get_append_one pend' o n hnp hp
                have hgq : (queue ++ [cs]).get ⟨n, hq⟩ = queue.get ⟨n, hlt⟩ :=
                  get_append_one queue cs n hlt hq
                obtain ⟨ho2, k2, hf2, hit2, htake2⟩ :=
                  howners (n + 1) (by simp; omega) (by simp; omega)
                have hilt : pend'.get ⟨n, hnp⟩ < R.length := ho2
                have hif : pend'.get ⟨n, hnp⟩ < fresh := hf2
                have hit3 : queue.get ⟨n, hlt⟩
                    = (fchildren t (R.get ⟨pend'.get ⟨n, hnp⟩, hilt⟩)).drop k2 := hit2
                have htake3 : kidsIn R ((R.get ⟨pend'.get ⟨n, hnp⟩, hilt⟩).path)
                    = (t.childIds ((R.get ⟨pend'.get ⟨n, hnp⟩, hilt⟩).id)).take k2 := htake2
                have himem : pend'.get ⟨n, hnp⟩ ∈ pend' := List.get_mem pend' n hnp
                have hio : pend'.get ⟨n, hnp⟩ ≠ o := fun he => hndc.1 (he ▸ himem)
                have hpne : (R.get ⟨pend'.get ⟨n, hnp⟩, hilt⟩).path ≠ (R.get ⟨o, hoo⟩).path :=
                  fun he => hio (paths_inj_of_idxPaths R hidx hilt hoo he)
                have hkt := kidsIn_append_untouched R { c with path := c.path ++ [R.length] }
                  ((R.get ⟨pend'.get ⟨n, hnp⟩, hilt⟩).path)
                  (childPredB_new_false R o hoo _ _ hcp2 hpne)
                have hlt'' : (pend' ++ [o]).get ⟨n, hp⟩
                    < (R ++ [{ c with path := c.path ++ [R.length] }]).length := by
                  rw [hgi]
                  simp only [List.length_append, List.length_cons, List.length_nil]
                  omega
                have hgR : (R ++ [{ c with path := c.path ++ [R.length] }]).get
                      ⟨(pend' ++ [o]).get ⟨n, hp⟩, hlt''⟩
                    = R.get ⟨pend'.get ⟨n, hnp⟩, hilt⟩ := by
                  rw [get_idx_congr _ _ (pend'.get ⟨n, hnp⟩) hlt'' hgi
                    (by simp only [List.length_append, List.length_cons, List.length_nil]; omega)]
                  exact get_append_one R _ _ hilt _
                refine ⟨hlt'', k2, ?_, ?_, ?_⟩
                · rw [hgi]
                  exact hif
                · rw [hgq, hgR]
                  exact hit3
                · rw [hgR, hkt]
                  exact htake3
              · have hn : n = queue.length := by
                  simp only [List.length_append, List.length_cons, List.length_nil] at hq
                  omega
                subst hn
                have hgi : (pend' ++ [o]).get ⟨queue.length, hp⟩ = o := by
                  rw [get_idx_congr _ _ pend'.length hp hlock2 (by simp)]
                  exact get_append_last pend' o (by simp)
                have hgq : (queue ++ [cs]).get ⟨queue.length, hq⟩ = cs :=
                  get_append_last queue cs hq
                have hlt'' : (pend' ++ [o]).get ⟨queue.length, hp⟩
                    < (R ++ [{ c with path := c.path ++ [R.length] }]).length := by
                  rw [hgi]
                  simp only [List.length_append, List.length_cons, List.length_nil]
                  omega
                have hgR : (R ++ [{ c with path := c.path ++ [R.length] }]).get
                      ⟨(pend' ++ [o]).get ⟨queue.length, hp⟩, hlt''⟩
                    = R.get ⟨o, hoo⟩ := by
                  rw [get_idx_congr _ _ o hlt'' hgi
                    (by simp only [List.length_append, List.length_cons, List.length_nil]; omega)]
                  exact get_append_one R _ o hoo _
                refine ⟨hlt'', k + 1, ?_, ?_, ?_⟩
                · rw [hgi]
                  exact hof
                · rw [hgq, hgR]
                  exact hcs.symm
                · rw [hgR, kidsIn_owner_append R _ o hoo hcp2, htake',
                    List.take_succ, hcid]
                  rfl
            · intro i hi hni
              have hni' : i ∉ o :: pend' := by
                simp only [List.mem_append, List.mem_cons, List.not_mem_nil, or_false] at hni
                simp only [List.mem_cons]
                tauto
              rcases Nat.lt_or_ge i R.length with hlt | hge
              · have hold := hfree i hlt hni'
                have hne : i ≠ o := fun he => hni' (he ▸ List.mem_cons_self o pend')
                have hpne : (R.get ⟨i, hlt⟩).path ≠ (R.get ⟨o, hoo⟩).path :=
                  fun he => hne (paths_inj_of_idxPaths R hidx hlt hoo he)
                have hkt := kidsIn_append_untouched R { c with path := c.path ++ [R.length] }
                  ((R.get ⟨i, hlt⟩).path)
                  (childPredB_new_false R o hoo _ _ hcp2 hpne)
                have hgR : (R ++ [{ c with path := c.path ++ [R.length] }]).get ⟨i, hi⟩
                    = R.get ⟨i, hlt⟩ := get_append_one R _ i hlt hi
                rw [hgR, hkt]
                exact hold
              · have heq : i = R.length := by
                  simp only [List.length_append, List.length_cons, List.length_nil] at hi
                  omega
                subst heq
                have hgR : (R ++ [{ c with path := c.path ++ [R.length] }]).get ⟨R.length, hi⟩
                    = { c with path := c.path ++ [R.length] } :=
                  get_append_last R _ hi
                rw [hgR]
                constructor
                · intro hlt2
                  exact absurd hlt2 (by omega)
                · intro _
                  exact kidsIn_new_self R _ o hoo hidx hpar hroot hcp2
          exact ih (queue ++ [cs]) (pend' ++ [o]) (y + H c.id) fresh
            (R ++ [{ c with path := c.path ++ [R.length] }]) hfuel2 hidx2 hpar2 hroot2 hinv2

/-- Wave-invariant preservation through the outer loop: the row list keeps
its indexing, parent and root invariants, and a run reporting completion has
every row's in-list children equal to its links entry. -/
lemma flatOuter_run (t : Tree) (H : Nat → Nat) (maxy : Nat) :
    ∀ (fuel start y : Nat) (R : List FNode),
      idxPaths R → parentsOK R → rootAt R →
      start ≤ R.length →
      (∀ i (hi : i < R.length), i < start →
        kidsIn R ((R.get ⟨i, hi⟩).path) = t.childIds ((R.get ⟨i, hi⟩).id)) →
      (∀ i (hi : i < R.length), start ≤ i →
        kidsIn R ((R.get ⟨i, hi⟩).path) = []) →
      idxPaths (flatOuter t H maxy fuel start y R).1 ∧
      parentsOK (flatOuter t H maxy fuel start y R).1 ∧
      rootAt (flatOuter t H maxy fuel start y R).1 ∧
      ((flatOuter t H maxy fuel start y R).2 = true →
        ∀ i (hi : i < (flatOuter t H maxy fuel start y R).1.length),
          kidsIn (flatOuter t H maxy fuel start y R).1
              (((flatOuter t H maxy fuel start y R).1.get ⟨i, hi⟩).path)
            = t.childIds (((flatOuter t H maxy fuel start y R).1.get ⟨i, hi⟩).id)) := by
  intro fuel
  induction fuel with
  | zero =>
    intro start y R hidx hpar hroot hstart hdone hnew
    exact ⟨hidx, hpar, hroot, fun hcon => by simp [flatOuter] at hcon⟩
  | succ fuel ih =>
    intro start y R hidx hpar hroot hstart hdone hnew
    have hinv : waveInv t R ((R.drop start).map (fun r => fchildren t r))
        (List.range' start (R.length - start)) R.length := by
      refine ⟨by simp, List.nodup_range' start (R.length - start), le_refl _, ?_, ?_⟩
      · intro n hq hp
        have hnlen : n < R.length - start := by simpa using hp
        have hgp : (List.range' start (R.length - start)).get ⟨n, hp⟩ = start + n := by
          rw [List.get_eq_getElem, List.getElem_range']
          simp
        have holt : start + n < R.length := by omega
        have ho : (List.range' start (R.length - start)).get ⟨n, hp⟩ < R.length := by
          rw [hgp]
          exact holt
        have hR : R.get ⟨(List.range' start (R.length - start)).get ⟨n, hp⟩, ho⟩
            = R.get ⟨start + n, holt⟩ := get_idx_congr R _ _ ho hgp holt
        refine ⟨ho, 0, ?_, ?_, ?_⟩
        · rw [hgp]
          omega
        · rw [hR, List.drop_zero]
          simp [List.get_eq_getElem, List.getElem_map, List.getElem_drop]
        · rw [hR, List.take_zero]
          exact hnew (start + n) holt (by omega)
      · intro i hi hni
        have hilt : i < start := by
          by_contra hcon
          push_neg at hcon
          exact hni (List.mem_range'.mpr ⟨i - start, by omega, by omega⟩)
        exact ⟨fun _ => hdone i hi hilt, fun hge => absurd hge (by omega)⟩
    have hrun := flatInner_run t H maxy
      (queueMeasure ((R.drop start).map (fun r => fchildren t r)))
      ((R.drop start).map (fun r => fchildren t r))
      (List.range' start (R.length - start)) y R.length R (le_refl _)
      hidx hpar hroot hinv
    have hpre := flatInner_prefix H maxy
      (queueMeasure ((R.drop start).map (fun r => fchildren t r)))
      ((R.drop start).map (fun r => fchildren t r)) y R
    simp only [flatOuter]
    cases hres : flatInner H maxy
        (queueMeasure ((R.drop start).map (fun r => fchildren t r))) y R
        ((R.drop start).map (fun r => fchildren t r)) with
    | mk y2 rest =>
      obtain ⟨rows', broke⟩ := rest
      rw [hres] at hrun hpre
      obtain ⟨hidx', hpar', hroot', hwave⟩ := hrun
      obtain ⟨ext, hext0⟩ := hpre
      have hext : rows' = R ++ ext := hext0
      cases broke with
      | true =>
        dsimp only
        exact ⟨hidx', hpar', hroot', fun hcon => by simp at hcon⟩
      | false =>
        dsimp only
        obtain ⟨_, _, hfr', _, hfree'⟩ := hwave rfl
        by_cases hstop : R.length = rows'.length
        · rw [if_pos hstop]
          refine ⟨hidx', hpar', hroot', fun _ => ?_⟩
          intro i hi
          have hi2 : i < rows'.length := hi
          exact (hfree' i hi (by simp)).1 (by omega)
        · rw [if_neg hstop]
          have hlen' : R.length ≤ rows'.length := by
            rw [hext]
            simp
          refine ih R.length y2 rows' hidx' hpar' hroot' hlen' ?_ ?_
          · intro i hi hilt
            exact (hfree' i hi (by simp)).1 (by omega)
          · intro i hi hge
            exact (hfree' i hi (by simp)).2 hge

/-- Index-labelled rows have duplicate-free paths. -/
lemma paths_nodup_of_idxPaths (R : List FNode) (hidx : idxPaths R) :
    (R.map (fun r => r.path)).Nodup := by
  have hpw : List.Pairwise (fun p q : List Nat => p ≠ q) (R.map (fun r => r.path)) := by
    rw [List.pairwise_map, List.pairwise_iff_get]
    intro i j hij
    rcases i with ⟨i, hi⟩
    rcases j with ⟨j, hj⟩
    have hij' : i < j := hij
    intro he
    have := paths_inj_of_idxPaths R hidx hi hj he
    omega
  exact hpw

/-- Among index-labelled rows, the rows below a fixed path appear in
increasing path order. -/
lemma filter_children_sorted (R : List FNode) (hidx : idxPaths R) (q : List Nat) :
    List.Sorted rowLe (R.filter (childPredB q)) := by
  have hp : List.Pairwise (fun a b : FNode =>
      childPredB q a = true → childPredB q b = true → rowLe a b) R := by
    rw [List.pairwise_iff_get]
    intro i j hij
    rcases i with ⟨i, hi⟩
    rcases j with ⟨j, hj⟩
    have hij' : i < j := hij
    intro ha hb
    obtain ⟨pa, hpa⟩ := hidx i hi
    obtain ⟨pb, hpb⟩ := hidx j hj
    rw [childPredB, Bool.and_eq_true, decide_eq_true_eq] at ha hb
    obtain ⟨ma, hma⟩ := leadsB_level q _ ha.2 ha.1
    obtain ⟨mb, hmb⟩ := leadsB_level q _ hb.2 hb.1
    have hia : ma = i := concat_inj_right q pa ma i (by rw [← hma, hpa])
    have hjb : mb = j := concat_inj_right q pb mb j (by rw [← hmb, hpb])
    rw [rowLe, hma, hmb, hia, hjb]
    exact pathLe_append_right q i j (le_of_lt hij')
  exact List.Pairwise.imp_of_mem
    (fun ha hb hr => hr (List.mem_filter.mp ha).2 (List.mem_filter.mp hb).2)
    (List.Pairwise.filter (childPredB q) hp)

/-- The final path sort does not change which rows sit below any fixed path,
nor their order: children sublists are sort-invariant. -/
lemma kidsIn_sortByPath (R : List FNode) (hidx : idxPaths R) (q : List Nat) :
    kidsIn (sortByPath R) q = kidsIn R q := by
  have hperm : (sortByPath R).Perm R := List.perm_insertionSort rowLe R
  have hpf : ((sortByPath R).filter (childPredB q)).Perm (R.filter (childPredB q)) :=
    hperm.filter _
  have hs1 : List.Sorted rowLe ((sortByPath R).filter (childPredB q)) :=
    List.Pairwise.filter (childPredB q) (List.sorted_insertionSort rowLe R)
  have hs2 : List.Sorted rowLe (R.filter (childPredB q)) :=
    filter_children_sorted R hidx q
  have hnd0 : ((sortByPath R).map (fun r => r.path)).Nodup :=
    (hperm.map (fun r => r.path)).nodup_iff.mpr (paths_nodup_of_idxPaths R hidx)
  have hnd : (((sortByPath R).filter (childPredB q)).map (fun r => r.path)).Nodup :=
    ((List.filter_sublist _).map _).nodup hnd0
  exact congrArg (List.map _) (sorted_perm_nodup_eq _ _ hpf hs1 hs2 hnd)

/-- Claim C3: whenever the flatten traversal completes without hitting the
viewport bound, the sorted row sequence lists the node ids of the displayed
subtree in pre-order: the requested root first, then recursively each node
immediately followed by the full listings of its structural children in
sibling order, as given by the links entries.  The final lexicographic sort
on per-row paths restores this document order from the breadth-first
discovery order of the wave/queue loop. -/
theorem flatten_preorder (t : Tree) (H : Nat → Nat) (y0 maxy pid id fuel : Nat)
    (hdone : (flattree t H y0 maxy pid id fuel).2 = true) :
    PreOrd t.childIds id ((flattree t H y0 maxy pid id fuel).1.map (fun r => r.id)) := by
  by_cases hguard : maxy < y0 + H id
  · exfalso
    unfold flattree at hdone
    rw [if_pos hguard] at hdone
    simp at hdone
  · cases hF : flatOuter t H maxy fuel 0 (y0 + H id) [rootFNode t pid id] with
    | mk rows completed =>
      have hfl : flattree t H y0 maxy pid id fuel = (sortByPath rows, completed) := by
        unfold flattree
        rw [if_neg hguard, hF]
      rw [hfl] at hdone
      have hcomp : completed = true := hdone
      subst hcomp
      rw [hfl]
      have hidx0 : idxPaths [rootFNode t pid id] := by
        intro j hj
        have hj1 : j < 1 := hj
        have hj0 : j = 0 := by omega
        subst hj0
        exact ⟨[], rfl⟩
      have hpar0 : parentsOK [rootFNode t pid id] := by
        intro j hj hj1
        have hlt : j < 1 := hj
        exact absurd hj1 (by omega)
      have hroot0 : rootAt [rootFNode t pid id] := by
        intro h
        rfl
      have hnew0 : ∀ i (hi : i < ([rootFNode t pid id] : List FNode).length), 0 ≤ i →
          kidsIn [rootFNode t pid id] (([rootFNode t pid id].get ⟨i, hi⟩).path) = [] := by
        intro i hi _
        have hlt : i < 1 := hi
        have hi0 : i = 0 := by omega
        subst hi0
        simp [kidsIn, childPredB, rootFNode]
      have hrun := flatOuter_run t H maxy fuel 0 (y0 + H id) [rootFNode t pid id]
        hidx0 hpar0 hroot0 (by simp) (fun i hi h0 => absurd h0 (by omega)) hnew0
      rw [hF] at hrun
      obtain ⟨hidxR, hparR, hrootR, hkidsR⟩ := hrun
      have hidxR' : idxPaths rows := hidxR
      have hparR' : parentsOK rows := hparR
      have hrootR' : rootAt rows := hrootR
      have hkidsR' : ∀ i (hi : i < rows.length),
          kidsIn rows ((rows.get ⟨i, hi⟩).path) = t.childIds ((rows.get ⟨i, hi⟩).id) :=
        hkidsR rfl
      have hpok : ∀ r ∈ rows, pathOk (rootFNode t pid id) r := by
        have h0 : ∀ r ∈ [rootFNode t pid id], pathOk (rootFNode t pid id) r := by
          intro r hr
          simp only [List.mem_cons, List.not_mem_nil, or_false] at hr
          subst hr
          exact ⟨rfl, Or.inl rfl⟩
        have hall := flatOuter_pathOk t H maxy (rootFNode t pid id) fuel 0 (y0 + H id) _ h0
        rw [hF] at hall
        exact hall
      have hpre := flatOuter_prefix t H maxy fuel 0 (y0 + H id) [rootFNode t pid id]
      rw [hF] at hpre
      obtain ⟨ext, hext0⟩ := hpre
      have hrows : rows = [rootFNode t pid id] ++ ext := hext0
      have hr0mem : rootFNode t pid id ∈ rows := by
        rw [hrows]
        simp
      have hperm : (sortByPath rows).Perm rows := List.perm_insertionSort rowLe rows
      have hsortS : List.Sorted rowLe (sortByPath rows) := List.sorted_insertionSort rowLe rows
      have hndS : ((sortByPath rows).map (fun r => r.path)).Nodup :=
        (hperm.map (fun r => r.path)).nodup_iff.mpr (paths_nodup_of_idxPaths rows hidxR')
      have hmemS : rootFNode t pid id ∈ sortByPath rows := hperm.mem_iff.mpr hr0mem
      have hminS : ∀ r ∈ sortByPath rows, pathLe (rootFNode t pid id).path r.path = true := by
        intro r hr
        exact pathLe_zero_left r.path (hpok r (hperm.mem_iff.mp hr)).1
      obtain ⟨D, hD⟩ := head_of_min (sortByPath rows) (rootFNode t pid id) hsortS hndS hmemS hminS
      have hsCons : List.Sorted rowLe (rootFNode t pid id :: D) := hD ▸ hsortS
      have hndCons : ((rootFNode t pid id :: D).map (fun r => r.path)).Nodup := hD ▸ hndS
      have hnotD : ∀ r ∈ D, r.path ≠ [0] := by
        intro r hr he
        have hx := hndCons
        simp only [List.map_cons, List.nodup_cons] at hx
        exact hx.1 (List.mem_map.mpr ⟨r, hr, he⟩)
      have hextD : ∀ r ∈ D, leadsB (rootFNode t pid id).path r.path = true ∧
          (rootFNode t pid id).path.length < r.path.length := by
        intro r hr
        have hrS : r ∈ sortByPath rows := by
          rw [hD]
          exact List.mem_cons_of_mem _ hr
        obtain ⟨hhead, hdisj⟩ := hpok r (hperm.mem_iff.mp hrS)
        have hlen2 : 2 ≤ r.path.length := by
          rcases hdisj with he | h2
          · exact absurd (by rw [he]; rfl : r.path = [0]) (hnotD r hr)
          · exact h2
        constructor
        · cases hp : r.path with
          | nil => rw [hp] at hhead; simp at hhead
          | cons x xs =>
            rw [hp] at hhead
            simp only [List.head?_cons, Option.some_inj] at hhead
            subst hhead
            exact (leadsB_iff _ _).mpr ⟨xs, rfl⟩
        · have h1 : (rootFNode t pid id).path.length = 1 := rfl
          omega
      have hcloseD : ∀ r ∈ D, r.path.dropLast = (rootFNode t pid id).path ∨
          ∃ r2 ∈ D, r2.path = r.path.dropLast := by
        intro r hr
        have hrS : r ∈ sortByPath rows := by
          rw [hD]
          exact List.mem_cons_of_mem _ hr
        obtain ⟨⟨j, hj⟩, hgj⟩ := List.mem_iff_get.mp (hperm.mem_iff.mp hrS)
        have hj1 : 1 ≤ j := by
          by_contra hc
          push_neg at hc
          have hj0 : j = 0 := by omega
          subst hj0
          have h00 := hrootR' hj
          rw [hgj] at h00
          exact hnotD r hr h00
        obtain ⟨i, hi, hij, hpath⟩ := hparR' j hj hj1
        rw [hgj] at hpath
        have hdl : r.path.dropLast = (rows.get ⟨i, hi⟩).path := by
          rw [hpath, List.dropLast_concat]
        have hr2S : rows.get ⟨i, hi⟩ ∈ sortByPath rows :=
          hperm.mem_iff.mpr (List.get_mem rows i hi)
        rw [hD] at hr2S
        rcases List.mem_cons.mp hr2S with he | hin
        · left
          rw [hdl, he]
        · right
          exact ⟨rows.get ⟨i, hi⟩, hin, hdl.symm⟩
      have hkidsD : ∀ r ∈ (rootFNode t pid id :: D),
          kidsIn (rootFNode t pid id :: D) r.path = t.childIds r.id := by
        intro r hr
        rw [← hD, kidsIn_sortByPath rows hidxR' r.path]
        rw [← hD] at hr
        obtain ⟨⟨j, hj⟩, hgj⟩ := List.mem_iff_get.mp (hperm.mem_iff.mp hr)
        rw [← hgj]
        exact hkidsR' j hj
      have hpo := preord_root t.childIds (rootFNode t pid id) D hsCons hndCons hextD hcloseD hkidsD
      rw [← hD] at hpo
      exact hpo

/-- Concrete tree for the C3 witness: root 1 with structural children
[2, 3, 4] and node 3 with child 5. -/
def preTree : Tree :=
  { nodes := fun _ => none
    links := fun i => some (if i = 1 then [2, 3, 4] else if i = 3 then [5] else [])
    selections := []
    highlighted := none }

/-- Witness for C3 at a concrete input: the displayed subtree fits, the run
completes, and the sorted rows list the ids in pre-order. -/
theorem flatten_preorder_witness :
    (flattree preTree (fun _ => 1) 0 100 0 1 8).2 = true ∧
    PreOrd preTree.childIds 1
      ((flattree preTree (fun _ => 1) 0 100 0 1 8).1.map (fun r => r.id)) :=
  ⟨by decide, flatten_preorder preTree (fun _ => 1) 0 100 0 1 8 (by decide)⟩

end Grus
